import Mathlib

/-!
# list_statistics.c : a verification development

Shallow embedding of `src/HW 2/list_statistics.c` (the barrier-synchronised
computation of mean and standard deviation) and theorems about it.

* C `int` is modelled by `Int` with an explicit two's-complement wrap
  (`wrap32`), C `long int` (LP64) by `Int` with `wrap64`.
* C `double` is modelled by an arbitrary field `K` (exact arithmetic) together
  with a square-root function passed as a parameter.
* The worker threads are modelled by a step function on a global state that
  holds the shared variables and one program counter per thread.
-/

namespace ListStatistics

/-! ## Constants and machine integers -/

/-- The constant `MAX_THREADS` of the source (line 21). -/
def MAX_THREADS : Int := 65536

/-- The constant `MAX_LIST_SIZE` of the source (line 22). -/
def MAX_LIST_SIZE : Int := 268435456

/-- Largest value of a C `int`. -/
def INT_MAX : Int := 2147483647

/-- Two's-complement wrap of a mathematical integer into a 32-bit `int`. -/
def wrap32 (x : Int) : Int := (x + 2147483648) % 4294967296 - 2147483648

/-- Two's-complement wrap of a mathematical integer into a 64-bit `long int`. -/
def wrap64 (x : Int) : Int :=
  (x + 9223372036854775808) % 18446744073709551616 - 9223372036854775808

/-! ## The partition computed by `find_minimum` (lines 47-50) -/

/-- Line 47: `int block_size = list_size/num_threads;`. C division truncates toward
zero; a zero divisor is undefined in C and gives 0 here (`worker_safety` shows that a
created thread never divides by zero). -/
def block_size (list_size num_threads : Int) : Int :=
  wrap32 (Int.tdiv list_size num_threads)

/-- Line 48: `int my_start = my_thread_id*block_size;`. -/
def my_start (list_size num_threads my_thread_id : Int) : Int :=
  wrap32 (my_thread_id * block_size list_size num_threads)

/-- Lines 49-50: `int my_end = (my_thread_id+1)*block_size-1;` overwritten by
`list_size-1` for the thread whose id is `num_threads-1`. -/
def my_end (list_size num_threads my_thread_id : Int) : Int :=
  if my_thread_id = wrap32 (num_threads - 1) then wrap32 (list_size - 1)
  else wrap32 (wrap32 (wrap32 (my_thread_id + 1) * block_size list_size num_threads) - 1)

/-- Index `j` is visited by the loops `for(j = my_start; j <= my_end; j++)` of worker `id`. -/
def in_range (list_size num_threads my_thread_id j : Int) : Prop :=
  my_start list_size num_threads my_thread_id ≤ j ∧ j ≤ my_end list_size num_threads my_thread_id

instance (N T i j : Int) : Decidable (in_range N T i j) := by
  unfold in_range; infer_instance

/-- Number of indices in the inclusive range of worker `id`. -/
def range_size (list_size num_threads my_thread_id : Int) : Int :=
  my_end list_size num_threads my_thread_id - my_start list_size num_threads my_thread_id + 1

/-! ## The local reductions of `find_minimum` -/

/-- The read `list[j]`: `none` when `j` is not an index of the list. -/
def list_get (list : List Int) (j : Int) : Option Int :=
  if 0 ≤ j then list[j.toNat]? else none

/-- Number of iterations of `for(j = a; j <= b; j++)`. -/
def trip_count (a b : Int) : Nat := (b + 1 - a).toNat

/-- Lines 54-56: the body `sum_local += list[j];` executed `n` more times from
index `j`; `sum_local` is a `long int`, so every addition wraps at 64 bits. The index
is not wrapped: an index that is read is below the length of the list, so `j + 1` is
far below `INT_MAX`, and a read outside the list ends the loop with a fault. -/
def sum_loop (list : List Int) : Nat → Int → Int → Option Int
  | 0, _, sum_local => some sum_local
  | n + 1, j, sum_local =>
    match list_get list j with
    | none => none
    | some x => sum_loop list n (j + 1) (wrap64 (sum_local + x))

/-- Lines 53-56: the phase-1 local sum of worker `my_thread_id`. -/
def sum_local (list : List Int) (list_size num_threads my_thread_id : Int) : Option Int :=
  sum_loop list
    (trip_count (my_start list_size num_threads my_thread_id)
      (my_end list_size num_threads my_thread_id))
    (my_start list_size num_threads my_thread_id) 0

/-- Lines 81-83 (and 155-157 of `main`): the body
`acc += ((list[j] - mean) * (list[j] - mean));` executed `n` more times from index `j`. -/
def sd_loop {K : Type} [Field K] (list : List Int) (mean : K) : Nat → Int → K → Option K
  | 0, _, acc => some acc
  | n + 1, j, acc =>
    match list_get list j with
    | none => none
    | some x => sd_loop list mean n (j + 1) (acc + ((x : K) - mean) * ((x : K) - mean))

/-- Lines 80-83: the phase-2 local sum of squared deviations of worker `my_thread_id`,
computed with the value `mean` that the global has when the loop runs. -/
def sd_local {K : Type} [Field K] (list : List Int) (mean : K)
    (list_size num_threads my_thread_id : Int) : Option K :=
  sd_loop list mean
    (trip_count (my_start list_size num_threads my_thread_id)
      (my_end list_size num_threads my_thread_id))
    (my_start list_size num_threads my_thread_id) 0

/-! ## The worker threads as a transition system -/

/-- Where a worker thread stands in `find_minimum`. -/
inductive PC where
  | start   -- before line 53
  | wait1   -- blocked in `pthread_cond_wait` of line 75
  | loop2   -- before line 80
  | sect2   -- before line 85
  | wait2   -- blocked in `pthread_cond_wait` of line 100
  | done    -- reached `pthread_exit`
  deriving DecidableEq, Repr

/-- The globals that the threads only read. -/
structure Env where
  list : List Int
  list_size : Int
  num_threads : Int

/-- The globals that the threads write, the program counter of every thread and
the variable `local_standard_deviation` of every thread. -/
structure State (K : Type) where
  count : Int
  mean : K
  standard_deviation : K
  pc : Nat → PC
  local_standard_deviation : Nat → K

/-- What a step did: `fold1`/`fold2` are the lock-protected sections of phase 1 and
phase 2, with the flag telling whether the branch `count == num_threads` was taken. -/
inductive Event where
  | fold1 (id : Nat) (finalizer : Bool)
  | loop2 (id : Nat)
  | fold2 (id : Nat) (finalizer : Bool)
  | spurious (id : Nat)
  deriving DecidableEq, Repr

/-- A scheduler choice: thread `id` runs its next block, or thread `id` returns from
`pthread_cond_wait` without a broadcast (POSIX allows spurious wakeups). -/
inductive Action where
  | run (id : Nat)
  | spurious_wakeup (id : Nat)
  deriving DecidableEq, Repr

/-- Assignment of the program counter of thread `i`. -/
def set_pc (pc : Nat → PC) (i : Nat) (p : PC) : Nat → PC :=
  fun k => if k = i then p else pc k

/-- Assignment of the local variable of thread `i`. -/
def set_local {K : Type} (l : Nat → K) (i : Nat) (v : K) : Nat → K :=
  fun k => if k = i then v else l k

/-- The call `pthread_cond_broadcast(&cond_barrier)`: every thread blocked on the one
condition variable, in whichever phase, is released. -/
def broadcast (pc : Nat → PC) : Nat → PC :=
  fun k => match pc k with
    | PC.wait1 => PC.loop2
    | PC.wait2 => PC.done
    | p => p

/-- Lines 58-77 executed by thread `i` with its local sum. The counter is incremented
at most twice per thread, so it stays far below `INT_MAX` and is not wrapped. -/
def phase1_section {K : Type} [Field K] (env : Env) (st : State K) (i : Nat)
    (sum_local : Int) : State K × Event :=
  let mean1 : K := if st.count = 0 then (sum_local : K) else st.mean + (sum_local : K)
  let count1 : Int := st.count + 1
  if count1 = env.num_threads then
    ({ st with mean := mean1 / (env.list_size : K), count := 0,
               pc := set_pc (broadcast st.pc) i PC.loop2 }, Event.fold1 i true)
  else
    ({ st with mean := mean1, count := count1, pc := set_pc st.pc i PC.wait1 },
      Event.fold1 i false)

/-- Lines 85-102 executed by thread `i`; `sqrt` stands for the library function. -/
def phase2_section {K : Type} [Field K] (sqrt : K → K) (env : Env) (st : State K)
    (i : Nat) : State K × Event :=
  let sd1 : K :=
    if st.count = 0 then st.local_standard_deviation i
    else st.standard_deviation + st.local_standard_deviation i
  let count1 : Int := st.count + 1
  if count1 = env.num_threads then
    ({ st with standard_deviation := sqrt (sd1 / (env.list_size : K)), count := count1,
               pc := set_pc (broadcast st.pc) i PC.done }, Event.fold2 i true)
  else
    ({ st with standard_deviation := sd1, count := count1, pc := set_pc st.pc i PC.wait2 },
      Event.fold2 i false)

/-- One scheduler step. A thread exists when `main` created it (`id < num_threads`);
a blocked or finished thread cannot run; a read outside the list is a fault (`none`).
The blocks of a thread are: lines 53-77 (the first loop reads only the list, which no
thread writes, so it is taken together with the lock-protected section that follows
it), lines 80-83 (the second loop, which reads the global `mean` without the lock) and
lines 85-102. A thread released by a broadcast leaves `pthread_cond_wait` and unlocks
the mutex without touching the shared variables, so the broadcast moves it directly to
its next block. -/
def step {K : Type} [Field K] (sqrt : K → K) (env : Env) (st : State K) :
    Action → Option (State K × Event)
  | Action.run i =>
    if (i : Int) < env.num_threads then
      match st.pc i with
      | PC.start =>
        match sum_local env.list env.list_size env.num_threads i with
        | none => none
        | some s => some (phase1_section env st i s)
      | PC.loop2 =>
        match sd_local env.list st.mean env.list_size env.num_threads i with
        | none => none
        | some d =>
          some ({ st with local_standard_deviation := set_local st.local_standard_deviation i d,
                          pc := set_pc st.pc i PC.sect2 }, Event.loop2 i)
      | PC.sect2 => some (phase2_section sqrt env st i)
      | _ => none
    else none
  | Action.spurious_wakeup i =>
    if (i : Int) < env.num_threads then
      match st.pc i with
      | PC.wait1 => some ({ st with pc := set_pc st.pc i PC.loop2 }, Event.spurious i)
      | PC.wait2 => some ({ st with pc := set_pc st.pc i PC.done }, Event.spurious i)
      | _ => none
    else none

/-- A run: the actions of a schedule one after the other, collecting the events. -/
def exec {K : Type} [Field K] (sqrt : K → K) (env : Env) :
    State K × List Event → List Action → Option (State K × List Event)
  | c, [] => some c
  | c, a :: rest =>
    match step sqrt env c.1 a with
    | none => none
    | some r => exec sqrt env (r.1, c.2 ++ [r.2]) rest

/-- The state in which `main` creates the threads: `count = 0` (line 161), the two
results hold whatever they held, every thread is at the start of `find_minimum`. -/
def init {K : Type} (m0 sd0 : K) (l0 : Nat → K) : State K :=
  { count := 0, mean := m0, standard_deviation := sd0, pc := fun _ => PC.start,
    local_standard_deviation := l0 }

/-- Every thread that `main` created has reached `pthread_exit`. -/
def all_done {K : Type} (env : Env) (st : State K) : Bool :=
  (List.range env.num_threads.toNat).all (fun i => decide (st.pc i = PC.done))

/-- The finalizer flags of the phase-1 sections of a trace, in order of arrival. -/
def flags1 : List Event → List Bool
  | [] => []
  | Event.fold1 _ b :: tr => b :: flags1 tr
  | _ :: tr => flags1 tr

/-- The finalizer flags of the phase-2 sections of a trace, in order of arrival. -/
def flags2 : List Event → List Bool
  | [] => []
  | Event.fold2 _ b :: tr => b :: flags2 tr
  | _ :: tr => flags2 tr

/-! ## The serial reference and the argument checks of `main` -/

/-- Lines 148-151 without the random fill: `true_mean += list[j];` executed `n` more
times from index `j`. -/
def true_mean_loop {K : Type} [Field K] (list : List Int) : Nat → Int → K → Option K
  | 0, _, tm => some tm
  | n + 1, j, tm =>
    match list_get list j with
    | none => none
    | some x => true_mean_loop list n (j + 1) (tm + (x : K))

/-- Lines 147-153: the value of `true_mean`. -/
def main_true_mean {K : Type} [Field K] (list : List Int) (list_size : Int) : Option K :=
  match list_get list 0 with
  | none => none
  | some x0 =>
    match true_mean_loop list (trip_count 1 (list_size - 1)) 1 (x0 : K) with
    | none => none
    | some tm => some (tm / (list_size : K))

/-- Lines 155-158: the value of `true_standard_deviation`. -/
def main_true_standard_deviation {K : Type} [Field K] (sqrt : K → K) (list : List Int)
    (list_size : Int) (true_mean : K) : Option K :=
  match sd_loop list true_mean (trip_count 0 (list_size - 1)) 0 0 with
  | none => none
  | some s => some (sqrt (s / (list_size : K)))

/-- Lines 165-168: the ids handed to `pthread_create`, `n` more iterations from `i`. -/
def create_threads : Nat → Int → List Int
  | 0, _ => []
  | n + 1, i => i :: create_threads n (i + 1)

/-- How a run of `main` ends as far as thread creation is concerned. -/
structure MainResult where
  rejected : Bool
  exit_status : Int
  created : List Int
  deriving DecidableEq, Repr

/-- Lines 120-136 and 165-168 of `main` as a function of `argc` and of the two values
returned by `atoi`. Each failed check calls `exit(0)`; a run that passes them creates
the threads and returns from `main` with status 0. -/
def main_control (argc list_size num_threads : Int) : MainResult :=
  if argc ≠ 3 then { rejected := true, exit_status := 0, created := [] }
  else if list_size > MAX_LIST_SIZE then { rejected := true, exit_status := 0, created := [] }
  else if num_threads > MAX_THREADS then { rejected := true, exit_status := 0, created := [] }
  else if num_threads > list_size then { rejected := true, exit_status := 0, created := [] }
  else { rejected := false, exit_status := 0,
         created := create_threads (trip_count 0 (num_threads - 1)) 0 }

/-! ## Concrete inputs -/

/-- Two threads on the list `[1, 3]`. -/
def env_two : Env := { list := [1, 3], list_size := 2, num_threads := 2 }

/-- One thread on the list `[5]`. -/
def env_one : Env := { list := [5], list_size := 1, num_threads := 1 }

/-- Three threads on a list of ten elements. -/
def env_three : Env :=
  { list := [3, 1, 4, 1, 5, 9, 2, 6, 5, 3], list_size := 10, num_threads := 3 }

/-! ## Quantities and invariants used in the proofs -/

/-- The threads among `0 .. T-1` whose program counter is `p`. -/
def at_pc (T : Nat) (pc : Nat → PC) (p : PC) : Finset Nat :=
  (Finset.range T).filter (fun i => pc i = p)

/-- The local sum that thread `i` folds in phase 1 (0 when its loop faults). -/
def local_sum_of (env : Env) (i : Nat) : Int :=
  (sum_local env.list env.list_size env.num_threads i).getD 0

/-- The value that the phase-1 finalizer leaves in `mean`. -/
def published_mean (K : Type) [Field K] (env : Env) : K :=
  (∑ i in Finset.range env.num_threads.toNat, (local_sum_of env i : K)) / (env.list_size : K)

/-- The local sum of squared deviations that thread `i` folds in phase 2 when its loop
reads the published mean (0 when its loop faults). -/
def local_sd_of (K : Type) [Field K] (env : Env) (i : Nat) : K :=
  (sd_local env.list (published_mean K env) env.list_size env.num_threads i).getD 0

/-- The value that the phase-2 finalizer leaves in `standard_deviation`. -/
def published_sd {K : Type} [Field K] (sqrt : K → K) (env : Env) : K :=
  sqrt ((∑ i in Finset.range env.num_threads.toNat, local_sd_of K env i) / (env.list_size : K))

/-- The flags of `T` arrivals of which only the last takes the finalizer branch. -/
def full_flags (T : Nat) : List Bool := List.replicate (T - 1) false ++ [true]

/-- Phase 1 is not finalized: every thread is at the start or blocked at line 75. -/
def PhaseA {K : Type} [Field K] (T : Nat) (env : Env) (st : State K) (tr : List Event) :
    Prop :=
  (∀ i, i < T → st.pc i = PC.start ∨ st.pc i = PC.wait1) ∧
  st.count = ((at_pc T st.pc PC.wait1).card : Int) ∧
  (at_pc T st.pc PC.wait1).card < T ∧
  flags1 tr = List.replicate (at_pc T st.pc PC.wait1).card false ∧
  flags2 tr = [] ∧
  (if st.count = 0 then 0 else st.mean)
    = ∑ i in at_pc T st.pc PC.wait1, (local_sum_of env i : K)

/-- Phase 1 is finalized and phase 2 is not: every thread is between line 78 and the
wait of line 100. -/
def PhaseB {K : Type} [Field K] (T : Nat) (env : Env) (st : State K) (tr : List Event) :
    Prop :=
  (∀ i, i < T → st.pc i = PC.loop2 ∨ st.pc i = PC.sect2 ∨ st.pc i = PC.wait2) ∧
  st.count = ((at_pc T st.pc PC.wait2).card : Int) ∧
  (at_pc T st.pc PC.wait2).card < T ∧
  flags1 tr = full_flags T ∧
  flags2 tr = List.replicate (at_pc T st.pc PC.wait2).card false ∧
  st.mean = published_mean K env ∧
  (∀ i, i < T → st.pc i = PC.sect2 → st.local_standard_deviation i = local_sd_of K env i) ∧
  (if st.count = 0 then 0 else st.standard_deviation)
    = ∑ i in at_pc T st.pc PC.wait2, local_sd_of K env i

/-- Both phases are finalized: every thread has exited. -/
def PhaseC {K : Type} [Field K] (sqrt : K → K) (T : Nat) (env : Env) (st : State K)
    (tr : List Event) : Prop :=
  (∀ i, i < T → st.pc i = PC.done) ∧
  st.count = (T : Int) ∧
  flags1 tr = full_flags T ∧
  flags2 tr = full_flags T ∧
  st.mean = published_mean K env ∧
  st.standard_deviation = published_sd sqrt env

/-- The invariant of the runs without spurious wakeup. -/
def Inv {K : Type} [Field K] (sqrt : K → K) (env : Env) (c : State K × List Event) : Prop :=
  PhaseA env.num_threads.toNat env c.1 c.2 ∨ PhaseB env.num_threads.toNat env c.1 c.2 ∨
    PhaseC sqrt env.num_threads.toNat env c.1 c.2

/-- The first index of worker `i` in natural numbers; `boundary N T T = N`. -/
def boundary (N T i : Nat) : Nat := if i = T then N else i * (N / T)

/-- How many blocks of `find_minimum` a thread at this point has behind it. -/
def rank : PC → Nat
  | PC.start => 0
  | PC.wait1 => 1
  | PC.loop2 => 1
  | PC.sect2 => 2
  | PC.wait2 => 3
  | PC.done => 3

/-- The number of blocks that the threads `0 .. T-1` have executed. -/
def progress_of (T : Nat) (pc : Nat → PC) : Nat := ∑ k in Finset.range T, rank (pc k)

/-- The globals are as `main` leaves them for a run that it does not reject and that
creates a thread: `list_size` elements of type `int`, `1 ≤ num_threads ≤ list_size`. -/
def ValidEnv (env : Env) : Prop :=
  1 ≤ env.num_threads ∧ env.num_threads ≤ env.list_size ∧
  env.list_size = (env.list.length : Int) ∧ env.list_size ≤ INT_MAX ∧
  ∀ x ∈ env.list, -2147483648 ≤ x ∧ x ≤ 2147483647

/-! ## Arithmetic facts about the partition -/

theorem wrap32_eq_self {x : Int} (h1 : -2147483648 ≤ x) (h2 : x ≤ 2147483647) :
    wrap32 x = x := by
  unfold wrap32; omega

theorem wrap64_eq_self {x : Int} (h1 : -9223372036854775808 ≤ x)
    (h2 : x ≤ 9223372036854775807) : wrap64 x = x := by
  unfold wrap64; omega

theorem block_size_eq {N T : Int} (hT : 1 ≤ T) (hTN : T ≤ N) (hN : N ≤ INT_MAX) :
    block_size N T = N / T := by
  unfold INT_MAX at hN
  have h0 : Int.tdiv N T = N / T := Int.tdiv_eq_ediv (by omega) (by omega)
  have h1 : 0 ≤ N / T := Int.ediv_nonneg (by omega) (by omega)
  have h2 : N / T ≤ N := Int.ediv_le_self _ (by omega)
  unfold block_size
  rw [h0]
  exact wrap32_eq_self (by omega) (by omega)

theorem block_size_pos {N T : Int} (hT : 1 ≤ T) (hTN : T ≤ N) : 1 ≤ N / T := by
  have := Int.ediv_le_ediv (by omega : (0 : Int) < T) hTN
  rwa [Int.ediv_self (by omega)] at this

theorem block_mul_le {N T : Int} (hT : 1 ≤ T) : T * (N / T) ≤ N :=
  Int.mul_ediv_self_le (by omega)

theorem mul_block_le {N T i : Int} (hT : 1 ≤ T) (hTN : T ≤ N) (hi : i ≤ T) :
    i * (N / T) ≤ N := by
  have hb := block_size_pos hT hTN
  have h1 := block_mul_le (N := N) hT
  nlinarith

theorem my_start_eq {N T i : Int} (hT : 1 ≤ T) (hTN : T ≤ N) (hN : N ≤ INT_MAX)
    (h0 : 0 ≤ i) (hi : i < T) : my_start N T i = i * (N / T) := by
  have hb := block_size_pos hT hTN
  have h1 := mul_block_le (i := i) hT hTN (by omega)
  have h2 : 0 ≤ i * (N / T) := by positivity
  unfold my_start
  rw [block_size_eq hT hTN hN]
  unfold INT_MAX at hN
  exact wrap32_eq_self (by omega) (by omega)

theorem my_end_eq {N T i : Int} (hT : 1 ≤ T) (hTN : T ≤ N) (hN : N ≤ INT_MAX)
    (h0 : 0 ≤ i) (hi : i < T) :
    my_end N T i = if i = T - 1 then N - 1 else (i + 1) * (N / T) - 1 := by
  have hb := block_size_pos hT hTN
  have h1 := mul_block_le (i := i + 1) hT hTN (by omega)
  have h2 : 0 ≤ (i + 1) * (N / T) := by positivity
  unfold my_end
  rw [block_size_eq hT hTN hN]
  unfold INT_MAX at hN
  rw [wrap32_eq_self (x := T - 1) (by omega) (by omega)]
  rw [wrap32_eq_self (x := N - 1) (by omega) (by omega)]
  rw [wrap32_eq_self (x := i + 1) (by omega) (by omega)]
  rw [wrap32_eq_self (x := (i + 1) * (N / T)) (by omega) (by omega)]
  rw [wrap32_eq_self (x := (i + 1) * (N / T) - 1) (by omega) (by omega)]

/-! ## C1, C2: the partition -/

theorem in_range_iff {N T i : Int} (hT : 1 ≤ T) (hTN : T ≤ N) (hN : N ≤ INT_MAX)
    (h0 : 0 ≤ i) (hi : i < T) (j : Int) :
    in_range N T i j ↔
      i * (N / T) ≤ j ∧ j ≤ (if i = T - 1 then N - 1 else (i + 1) * (N / T) - 1) := by
  unfold in_range
  rw [my_start_eq hT hTN hN h0 hi, my_end_eq hT hTN hN h0 hi]

/-- C1 (partition coverage): for a list size `N` and a thread count `T` with
`1 ≤ T ≤ N` (`N` a C `int`), the inclusive ranges `[my_start, my_end]` of the workers
`0 .. T-1` lie inside `{0, ..., N-1}`, are pairwise disjoint, and every index of
`{0, ..., N-1}` lies in the range of some worker. -/
theorem partition_coverage (N T : Int) (hT : 1 ≤ T) (hTN : T ≤ N) (hN : N ≤ INT_MAX) :
    (∀ i j, 0 ≤ i → i < T → in_range N T i j → 0 ≤ j ∧ j ≤ N - 1) ∧
    (∀ i1 i2 j, 0 ≤ i1 → i1 < T → 0 ≤ i2 → i2 < T →
      in_range N T i1 j → in_range N T i2 j → i1 = i2) ∧
    (∀ j, 0 ≤ j → j ≤ N - 1 → ∃ i, 0 ≤ i ∧ i < T ∧ in_range N T i j) := by
  have hb := block_size_pos hT hTN
  have hdisj : ∀ i1 i2 j, 0 ≤ i1 → i1 < T → 0 ≤ i2 → i2 < T → i1 < i2 →
      in_range N T i1 j → in_range N T i2 j → False := by
    intro i1 i2 j h1 h1T h2 h2T hlt hr1 hr2
    rw [in_range_iff hT hTN hN h1 h1T] at hr1
    rw [in_range_iff hT hTN hN h2 h2T] at hr2
    rw [if_neg (by omega)] at hr1
    have : (i1 + 1) * (N / T) ≤ i2 * (N / T) :=
      mul_le_mul_of_nonneg_right (by omega) (by omega)
    omega
  refine ⟨?_, ?_, ?_⟩
  · intro i j h0 hi hr
    rw [in_range_iff hT hTN hN h0 hi] at hr
    have h1 := mul_block_le (N := N) (i := i + 1) hT hTN (by omega)
    have h2 : 0 ≤ i * (N / T) := by positivity
    split_ifs at hr <;> omega
  · intro i1 i2 j h1 h1T h2 h2T hr1 hr2
    rcases lt_trichotomy i1 i2 with h | h | h
    · exact (hdisj i1 i2 j h1 h1T h2 h2T h hr1 hr2).elim
    · exact h
    · exact (hdisj i2 i1 j h2 h2T h1 h1T h hr2 hr1).elim
  · intro j h0 hj
    by_cases hlast : (T - 1) * (N / T) ≤ j
    · refine ⟨T - 1, by omega, by omega, ?_⟩
      rw [in_range_iff hT hTN hN (by omega) (by omega)]
      rw [if_pos rfl]
      exact ⟨hlast, hj⟩
    · have hq : j / (N / T) < T - 1 := Int.ediv_lt_of_lt_mul (by omega) (by omega)
      have hq0 : 0 ≤ j / (N / T) := Int.ediv_nonneg h0 (by omega)
      refine ⟨j / (N / T), hq0, by omega, ?_⟩
      rw [in_range_iff hT hTN hN hq0 (by omega)]
      rw [if_neg (by omega)]
      have e1 := Int.ediv_add_emod j (N / T)
      have e2 := Int.emod_nonneg j (by omega : N / T ≠ 0)
      have e3 := Int.emod_lt_of_pos j (by omega : 0 < N / T)
      constructor
      · nlinarith
      · nlinarith

/-- Witness of `partition_coverage`: ten elements and three threads. -/
theorem partition_coverage_witness :
    (∀ i j, 0 ≤ i → i < (3 : Int) → in_range 10 3 i j → 0 ≤ j ∧ j ≤ 10 - 1) ∧
    (∀ i1 i2 j, 0 ≤ i1 → i1 < (3 : Int) → 0 ≤ i2 → i2 < (3 : Int) →
      in_range 10 3 i1 j → in_range 10 3 i2 j → i1 = i2) ∧
    (∀ j, 0 ≤ j → j ≤ (10 : Int) - 1 → ∃ i, 0 ≤ i ∧ i < (3 : Int) ∧ in_range 10 3 i j) :=
  partition_coverage 10 3 (by decide) (by decide) (by decide)

/-- C2 (partition sizing): with `b = N / T`, every worker `i < T-1` gets exactly the
`b` indices `i*b .. (i+1)*b - 1`, the last worker gets `(T-1)*b .. N-1`, of size
`b + N mod T`; when `T = N` every range has size 1. -/
theorem partition_sizing (N T : Int) (hT : 1 ≤ T) (hTN : T ≤ N) (hN : N ≤ INT_MAX) :
    (∀ i, 0 ≤ i → i < T - 1 →
      my_start N T i = i * (N / T) ∧ my_end N T i = (i + 1) * (N / T) - 1 ∧
      range_size N T i = N / T) ∧
    (my_start N T (T - 1) = (T - 1) * (N / T) ∧ my_end N T (T - 1) = N - 1 ∧
      range_size N T (T - 1) = N / T + N % T) ∧
    (T = N → ∀ i, 0 ≤ i → i < T → range_size N T i = 1) := by
  have hb := block_size_pos hT hTN
  have hmid : ∀ i, 0 ≤ i → i < T - 1 →
      my_start N T i = i * (N / T) ∧ my_end N T i = (i + 1) * (N / T) - 1 ∧
      range_size N T i = N / T := by
    intro i h0 hi
    have hs := my_start_eq hT hTN hN h0 (by omega : i < T)
    have he := my_end_eq hT hTN hN h0 (by omega : i < T)
    rw [if_neg (by omega)] at he
    refine ⟨hs, he, ?_⟩
    unfold range_size
    rw [hs, he]
    ring
  have hlast : my_start N T (T - 1) = (T - 1) * (N / T) ∧ my_end N T (T - 1) = N - 1 ∧
      range_size N T (T - 1) = N / T + N % T := by
    have hs := my_start_eq hT hTN hN (by omega : 0 ≤ T - 1) (by omega : T - 1 < T)
    have he := my_end_eq hT hTN hN (by omega : 0 ≤ T - 1) (by omega : T - 1 < T)
    rw [if_pos rfl] at he
    refine ⟨hs, he, ?_⟩
    unfold range_size
    rw [hs, he]
    have e1 := Int.ediv_add_emod N T
    linarith
  refine ⟨hmid, hlast, ?_⟩
  intro hEq i h0 hi
  have hone : N / T = 1 := by rw [hEq]; exact Int.ediv_self (by omega)
  have hmod : N % T = 0 := by rw [hEq]; exact Int.emod_self
  by_cases hl : i = T - 1
  · rw [hl, hlast.2.2, hone, hmod]; rfl
  · rw [(hmid i h0 (by omega)).2.2, hone]

/-- Witness of `partition_sizing`: ten elements and three threads. -/
theorem partition_sizing_witness :
    (∀ i, 0 ≤ i → i < (3 : Int) - 1 →
      my_start 10 3 i = i * (10 / 3) ∧ my_end 10 3 i = (i + 1) * (10 / 3) - 1 ∧
      range_size 10 3 i = 10 / 3) ∧
    (my_start 10 3 (3 - 1) = (3 - 1) * (10 / 3) ∧ my_end 10 3 (3 - 1) = 10 - 1 ∧
      range_size 10 3 (3 - 1) = 10 / 3 + 10 % 3) ∧
    ((3 : Int) = 10 → ∀ i, 0 ≤ i → i < (3 : Int) → range_size 10 3 i = 1) :=
  partition_sizing 10 3 (by decide) (by decide) (by decide)

/-! ## C6: the argument checks of `main` -/

theorem length_create_threads (n : Nat) (i : Int) : (create_threads n i).length = n := by
  induction n generalizing i with
  | zero => rfl
  | succ n ih => simp [create_threads, ih]

theorem mem_create_threads (n : Nat) (i k : Int) :
    k ∈ create_threads n i ↔ i ≤ k ∧ k < i + n := by
  induction n generalizing i with
  | zero => simp [create_threads]
  | succ n ih =>
    simp only [create_threads, List.mem_cons, ih]
    push_cast
    omega

theorem main_control_rejected_iff (argc N T : Int) :
    (main_control argc N T).rejected = true ↔
      (argc ≠ 3 ∨ N > MAX_LIST_SIZE ∨ T > MAX_THREADS ∨ T > N) := by
  unfold main_control
  split_ifs with h1 h2 h3 h4 <;> simp_all

theorem main_control_accepted {argc N T : Int} (h : (main_control argc N T).rejected = false) :
    argc = 3 ∧ N ≤ MAX_LIST_SIZE ∧ T ≤ MAX_THREADS ∧ T ≤ N ∧
      (main_control argc N T).created = create_threads (trip_count 0 (T - 1)) 0 := by
  have hr := main_control_rejected_iff argc N T
  rw [h] at hr
  have hn : ¬ (argc ≠ 3 ∨ N > MAX_LIST_SIZE ∨ T > MAX_THREADS ∨ T > N) := by
    intro hc
    exact absurd (hr.mpr hc) (by decide)
  push_neg at hn
  obtain ⟨h1, h2, h3, h4⟩ := hn
  refine ⟨h1, h2, h3, h4, ?_⟩
  unfold main_control
  rw [if_neg (by simpa using h1), if_neg (by omega), if_neg (by omega), if_neg (by omega)]

/-- C6 (pre-flight rejection): `main` rejects the run exactly when `argc != 3`, or
`N > MAX_LIST_SIZE`, or `T > MAX_THREADS`, or `T > N`; a rejected run creates no thread
and exits with status 0; a run that is not rejected creates exactly `T` threads when
`T ≥ 0`. -/
theorem preflight_rejection (argc N T : Int) :
    ((main_control argc N T).rejected = true ↔
      (argc ≠ 3 ∨ N > 268435456 ∨ T > 65536 ∨ T > N)) ∧
    ((main_control argc N T).rejected = true →
      (main_control argc N T).created = [] ∧ (main_control argc N T).exit_status = 0) ∧
    ((main_control argc N T).rejected = false → 0 ≤ T →
      ((main_control argc N T).created.length : Int) = T) := by
  refine ⟨main_control_rejected_iff argc N T, ?_, ?_⟩
  · unfold main_control
    split_ifs <;> simp
  · intro h hT
    rw [(main_control_accepted h).2.2.2.2, length_create_threads]
    unfold trip_count
    omega

/-! ## C9, C10: the local loops stay inside the list and do not overflow -/

theorem list_get_eq {list : List Int} {a : Nat} (h : a < list.length) :
    list_get list (a : Int) = some list[a] := by
  unfold list_get
  rw [if_pos (by omega)]
  simp [h]

theorem list_get_of_bounds {list : List Int} {j : Int} (h0 : 0 ≤ j)
    (h1 : j < (list.length : Int)) : ∃ x, list_get list j = some x := by
  obtain ⟨a, rfl⟩ := Int.eq_ofNat_of_zero_le h0
  exact ⟨_, list_get_eq (by omega)⟩

theorem take_succ_drop {α : Type} (list : List α) {a : Nat} (n : Nat) (h : a < list.length) :
    (list.drop a).take (n + 1) = list[a] :: (list.drop (a + 1)).take n := by
  rw [List.drop_eq_getElem_cons h, List.take_succ_cons]

/-- The mathematical sum of the `n` elements of the list from index `a`. -/
theorem sum_loop_exact (list : List Int)
    (hval : ∀ x ∈ list, -2147483648 ≤ x ∧ x ≤ 2147483647) :
    ∀ (n a : Nat) (s : Int) (c : Nat), a + n ≤ list.length →
      -(c * 2147483648 : Int) ≤ s → s ≤ (c * 2147483648 : Int) → c + n ≤ 2147483648 →
      sum_loop list n (a : Int) s = some (s + ((list.drop a).take n).sum) ∧
      -((c + n : Nat) * 2147483648 : Int) ≤ s + ((list.drop a).take n).sum ∧
      s + ((list.drop a).take n).sum ≤ ((c + n : Nat) * 2147483648 : Int) := by
  intro n
  induction n with
  | zero =>
    intro a s c _ h1 h2 _
    simp [sum_loop]
    omega
  | succ n ih =>
    intro a s c ha h1 h2 hc
    have hlt : a < list.length := by omega
    have hx := hval list[a] (List.getElem_mem _)
    have hw : wrap64 (s + list[a]) = s + list[a] := by
      apply wrap64_eq_self <;> nlinarith
    have := ih (a + 1) (s + list[a]) (c + 1) (by omega) (by push_cast; omega)
      (by push_cast; omega) (by omega)
    rw [take_succ_drop list n hlt, List.sum_cons]
    simp only [sum_loop, list_get_eq hlt, hw]
    have e : s + list[a] + ((list.drop (a + 1)).take n).sum
        = s + (list[a] + ((list.drop (a + 1)).take n).sum) := by ring
    have e2 : c + 1 + n = c + (n + 1) := by omega
    rw [e, e2] at this
    exact_mod_cast this

/-- C9 (no overflow in the phase-1 local sum): for a list of at most `MAX_LIST_SIZE`
values of a 32-bit `int` and a range of `n` indices from `a` inside the list, after
each of the `k ≤ n` additions the 64-bit running total equals the mathematical sum of
the elements read so far, whose magnitude is at most `2^59`. -/
theorem sum_local_no_overflow (list : List Int)
    (hlen : (list.length : Int) ≤ MAX_LIST_SIZE)
    (hval : ∀ x ∈ list, -2147483648 ≤ x ∧ x ≤ 2147483647)
    (a n : Nat) (h : a + n ≤ list.length) :
    ∀ k, k ≤ n →
      sum_loop list k (a : Int) 0 = some (((list.drop a).take k).sum) ∧
      -576460752303423488 ≤ ((list.drop a).take k).sum ∧
      ((list.drop a).take k).sum ≤ 576460752303423488 := by
  intro k hk
  unfold MAX_LIST_SIZE at hlen
  have := sum_loop_exact list hval k a 0 0 (by omega) (by simp) (by simp) (by omega)
  simp only [zero_add] at this
  refine ⟨this.1, ?_, ?_⟩
  · have h2 := this.2.1
    have : (k : Int) ≤ 268435456 := by omega
    omega
  · have h2 := this.2.2
    have : (k : Int) ≤ 268435456 := by omega
    omega

/-- Witness of `sum_local_no_overflow`: the extreme values of an `int`, the range of
two indices from index 1, after both additions. -/
theorem sum_local_no_overflow_witness :
    sum_loop [2147483647, 2147483647, -2147483648] 2 ((1 : Nat) : Int) 0
      = some ((([2147483647, 2147483647, -2147483648] : List Int).drop 1).take 2).sum ∧
    -576460752303423488
      ≤ ((([2147483647, 2147483647, -2147483648] : List Int).drop 1).take 2).sum ∧
    ((([2147483647, 2147483647, -2147483648] : List Int).drop 1).take 2).sum
      ≤ 576460752303423488 :=
  sum_local_no_overflow [2147483647, 2147483647, -2147483648] (by decide) (by decide) 1 2
    (by decide) 2 (by decide)

theorem sum_loop_isSome (list : List Int) :
    ∀ (n a : Nat) (s : Int), a + n ≤ list.length → (sum_loop list n (a : Int) s).isSome := by
  intro n
  induction n with
  | zero => intro a s _; rfl
  | succ n ih =>
    intro a s ha
    have hlt : a < list.length := by omega
    have := ih (a + 1) (wrap64 (s + list[a])) (by omega)
    simp only [sum_loop, list_get_eq hlt]
    exact_mod_cast this

theorem sd_loop_exact {K : Type} [Field K] (list : List Int) (m : K) :
    ∀ (n a : Nat) (acc : K), a + n ≤ list.length →
      sd_loop list m n (a : Int) acc
        = some (acc + (((list.drop a).take n).map (fun x : Int => ((x : K) - m) * ((x : K) - m))).sum) := by
  intro n
  induction n with
  | zero => intro a acc _; simp [sd_loop]
  | succ n ih =>
    intro a acc ha
    have hlt : a < list.length := by omega
    have := ih (a + 1) (acc + ((list[a] : K) - m) * ((list[a] : K) - m)) (by omega)
    rw [take_succ_drop list n hlt, List.map_cons, List.sum_cons]
    simp only [sd_loop, list_get_eq hlt]
    rw [← add_assoc]
    exact_mod_cast this

/-- The range of a worker in natural numbers: it starts at `a`, has `n ≥ 1` indices and
ends inside the list. -/
theorem worker_range_nat {N T i : Int} (hT : 1 ≤ T) (hTN : T ≤ N) (hN : N ≤ INT_MAX)
    (h0 : 0 ≤ i) (hi : i < T) :
    ∃ a n : Nat, my_start N T i = (a : Int) ∧
      trip_count (my_start N T i) (my_end N T i) = n ∧
      my_end N T i + 1 = (a : Int) + (n : Int) ∧ 1 ≤ n ∧ (a : Int) + (n : Int) ≤ N := by
  have hb := block_size_pos hT hTN
  have hs := my_start_eq hT hTN hN h0 hi
  have he := my_end_eq hT hTN hN h0 hi
  have h1 := mul_block_le (N := N) (i := i + 1) hT hTN (by omega)
  have h2 : 0 ≤ i * (N / T) := by positivity
  have h3 := mul_block_le (N := N) (i := i) hT hTN (by omega)
  have h4 : (i + 1) * (N / T) = i * (N / T) + N / T := by ring
  have h5 : my_start N T i + 1 ≤ my_end N T i + 1 ∧ my_end N T i + 1 ≤ N := by
    rw [hs, he]
    split_ifs with hl
    · subst hl
      have := block_mul_le (N := N) hT
      have h6 : (N / T) * T = T * (N / T) := by ring
      constructor <;> nlinarith
    · omega
  refine ⟨(my_start N T i).toNat, trip_count (my_start N T i) (my_end N T i), ?_, rfl, ?_, ?_, ?_⟩
  · rw [hs]; omega
  · unfold trip_count; omega
  · unfold trip_count; omega
  · unfold trip_count; omega

/-- C10 (worker safety under the checks that `main` performs): when `main` does not
reject `(N, T)` and creates a thread with id `id`, then `1 ≤ T ≤ N ≤ MAX_LIST_SIZE`,
`T ≤ MAX_THREADS`, the divisor is not zero, the products `id*block_size` and
`(id+1)*block_size` are at most `N` and are not changed by the 32-bit wrap, the range
satisfies `0 ≤ my_start ≤ my_end ≤ N-1`, every index of the range is an index of the
list, and both loops read the list without a fault. -/
theorem worker_safety (argc N T id : Int) (list : List Int)
    (hlen : (list.length : Int) = N)
    (hrun : (main_control argc N T).rejected = false)
    (hid : id ∈ (main_control argc N T).created) :
    (1 ≤ T ∧ T ≤ N ∧ N ≤ MAX_LIST_SIZE ∧ T ≤ MAX_THREADS) ∧
    (0 ≤ id ∧ id < T ∧ T ≠ 0) ∧
    (0 ≤ id * block_size N T ∧ id * block_size N T ≤ N ∧
      (id + 1) * block_size N T ≤ N ∧
      wrap32 (id * block_size N T) = id * block_size N T ∧
      wrap32 ((id + 1) * block_size N T) = (id + 1) * block_size N T) ∧
    (0 ≤ my_start N T id ∧ my_start N T id ≤ my_end N T id ∧ my_end N T id ≤ N - 1) ∧
    (∀ j, in_range N T id j → ∃ x, list_get list j = some x) ∧
    (sum_local list N T id).isSome ∧
    (∀ (K : Type) [Field K] (mean : K), (sd_local list mean N T id).isSome) := by
  obtain ⟨_, hN, hTmax, hTN, hc⟩ := main_control_accepted hrun
  rw [hc, mem_create_threads] at hid
  unfold trip_count at hid
  have h0 : 0 ≤ id := by omega
  have hT : 1 ≤ T := by omega
  have hi : id < T := by omega
  have hNI : N ≤ INT_MAX := by unfold MAX_LIST_SIZE at hN; unfold INT_MAX; omega
  have hb := block_size_pos hT hTN
  have hbs := block_size_eq hT hTN hNI
  have h1 := mul_block_le (N := N) (i := id + 1) hT hTN (by omega)
  have h2 : 0 ≤ id * (N / T) := by positivity
  have h3 := mul_block_le (N := N) (i := id) hT hTN (by omega)
  have h4 : 0 ≤ (id + 1) * (N / T) := by positivity
  obtain ⟨a, n, ha, hn, hend, hn1, han⟩ := worker_range_nat hT hTN hNI h0 hi
  unfold INT_MAX at hNI
  refine ⟨⟨hT, hTN, hN, hTmax⟩, ⟨h0, hi, by omega⟩, ?_, ?_, ?_, ?_, ?_⟩
  · rw [hbs]
    exact ⟨h2, h3, h1, wrap32_eq_self (by omega) (by omega),
      wrap32_eq_self (by omega) (by omega)⟩
  · omega
  · intro j hj
    unfold in_range at hj
    exact list_get_of_bounds (by omega) (by omega)
  · unfold sum_local
    rw [hn, ha]
    exact sum_loop_isSome list n a 0 (by omega)
  · intro K _ mean
    unfold sd_local
    rw [hn, ha, sd_loop_exact list mean n a 0 (by omega)]
    rfl

/-- Witness of `worker_safety`: the last of three workers on ten elements. -/
theorem worker_safety_witness :
    (([3, 1, 4, 1, 5, 9, 2, 6, 5, 3] : List Int).length : Int) = 10 ∧
    (main_control 3 10 3).rejected = false ∧
    (2 : Int) ∈ (main_control 3 10 3).created ∧
    (0 ≤ my_start 10 3 2 ∧ my_start 10 3 2 ≤ my_end 10 3 2 ∧ my_end 10 3 2 ≤ 10 - 1) ∧
    (sum_local [3, 1, 4, 1, 5, 9, 2, 6, 5, 3] 10 3 2).isSome :=
  have h := worker_safety 3 10 3 2 [3, 1, 4, 1, 5, 9, 2, 6, 5, 3] (by decide) (by decide)
    (by decide)
  ⟨by decide, by decide, by decide, h.2.2.2.1, h.2.2.2.2.2.1⟩

/-! ## The runs without spurious wakeup -/

theorem flags1_append (tr tr2 : List Event) : flags1 (tr ++ tr2) = flags1 tr ++ flags1 tr2 := by
  induction tr with
  | nil => rfl
  | cons e tr ih => cases e <;> simp [flags1, ih]

theorem flags2_append (tr tr2 : List Event) : flags2 (tr ++ tr2) = flags2 tr ++ flags2 tr2 := by
  induction tr with
  | nil => rfl
  | cons e tr ih => cases e <;> simp [flags2, ih]

theorem mem_at_pc {T : Nat} {pc : Nat → PC} {p : PC} {k : Nat} :
    k ∈ at_pc T pc p ↔ k < T ∧ pc k = p := by
  simp [at_pc]

theorem at_pc_set_same {T : Nat} {pc : Nat → PC} {p : PC} {i : Nat} (hi : i < T)
    (hp : pc i ≠ p) :
    at_pc T (set_pc pc i p) p = insert i (at_pc T pc p) ∧ i ∉ at_pc T pc p := by
  constructor
  · ext k
    simp only [mem_at_pc, Finset.mem_insert, set_pc]
    by_cases hk : k = i
    · subst hk; simp [hi]
    · simp [hk]
  · simp [mem_at_pc, hp]

theorem at_pc_set_other {T : Nat} {pc : Nat → PC} {p q : PC} {i : Nat}
    (hp : pc i ≠ q) (hq : p ≠ q) : at_pc T (set_pc pc i p) q = at_pc T pc q := by
  ext k
  simp only [mem_at_pc, set_pc]
  by_cases hk : k = i
  · subst hk; simp [hp, hq]
  · simp [hk]

theorem at_pc_eq_erase {T : Nat} {pc : Nat → PC} {w : PC} {i : Nat} (hi : i < T)
    (hp : pc i ≠ w) (hc : (at_pc T pc w).card + 1 = T) :
    at_pc T pc w = (Finset.range T).erase i := by
  apply Finset.eq_of_subset_of_card_le
  · intro k hk
    rw [mem_at_pc] at hk
    rw [Finset.mem_erase, Finset.mem_range]
    refine ⟨?_, hk.1⟩
    rintro rfl
    exact hp hk.2
  · rw [Finset.card_erase_of_mem (Finset.mem_range.mpr hi), Finset.card_range]
    omega

theorem all_others_at {T : Nat} {pc : Nat → PC} {w : PC} {i : Nat} (hi : i < T)
    (hp : pc i ≠ w) (hc : (at_pc T pc w).card + 1 = T) :
    ∀ k, k < T → k ≠ i → pc k = w := by
  intro k hk hne
  have : k ∈ at_pc T pc w := by
    rw [at_pc_eq_erase hi hp hc, Finset.mem_erase, Finset.mem_range]
    exact ⟨hne, hk⟩
  exact (mem_at_pc.mp this).2

theorem at_pc_empty {T : Nat} {pc : Nat → PC} {w : PC} (h : ∀ k, k < T → pc k ≠ w) :
    at_pc T pc w = ∅ := by
  ext k
  simp only [mem_at_pc, Finset.not_mem_empty, iff_false, not_and]
  exact h k

theorem fold_acc {K : Type} [Field K] (c : Int) (m v : K) :
    (if c = 0 then v else m + v) = (if c = 0 then 0 else m) + v := by
  split_ifs <;> simp

theorem replicate_full {T n : Nat} (h : n + 1 = T) :
    List.replicate n false ++ [true] = full_flags T := by
  unfold full_flags
  have : T - 1 = n := by omega
  rw [this]

/-- A phase-1 section keeps the invariant: it leaves phase 1 open, or finalizes it. -/
theorem phaseA_fold1 {K : Type} [Field K] (env : Env) (T : Nat)
    (hT : env.num_threads = (T : Int)) (st : State K) (tr : List Event) (i : Nat)
    (hi : i < T) (hpc : st.pc i = PC.start) (h : PhaseA T env st tr) :
    PhaseA T env (phase1_section env st i (local_sum_of env i)).1
        (tr ++ [(phase1_section env st i (local_sum_of env i)).2]) ∨
      PhaseB T env (phase1_section env st i (local_sum_of env i)).1
        (tr ++ [(phase1_section env st i (local_sum_of env i)).2]) := by
  obtain ⟨hpcs, hcount, hlt, hf1, hf2, hmean⟩ := h
  have hne : st.pc i ≠ PC.wait1 := by rw [hpc]; decide
  by_cases hfin : st.count + 1 = env.num_threads
  · right
    have hcard : (at_pc T st.pc PC.wait1).card + 1 = T := by
      rw [hT, hcount] at hfin
      exact_mod_cast hfin
    have hall := all_others_at hi hne hcard
    have hnew : ∀ k, k < T → set_pc (broadcast st.pc) i PC.loop2 k = PC.loop2 := by
      intro k hk
      by_cases hki : k = i
      · simp [set_pc, hki]
      · simp [set_pc, hki, broadcast, hall k hk hki]
    have hempty : at_pc T (set_pc (broadcast st.pc) i PC.loop2) PC.wait2 = ∅ :=
      at_pc_empty (fun k hk => by rw [hnew k hk]; decide)
    simp only [phase1_section, hfin, if_true]
    refine ⟨fun k hk => Or.inl (hnew k hk), ?_, ?_, ?_, ?_, ?_, ?_, ?_⟩
    · rw [hempty]; simp
    · rw [hempty]; simp; omega
    · rw [flags1_append, hf1]
      simp only [flags1]
      exact replicate_full hcard
    · rw [flags2_append, hf2, hempty]
      simp [flags2]
    · show _ / _ = published_mean K env
      unfold published_mean
      rw [fold_acc, hmean, at_pc_eq_erase hi hne hcard, hT, Int.toNat_ofNat,
        Finset.sum_erase_add _ _ (Finset.mem_range.mpr hi)]
    · intro k hk hk2
      have hk3 : set_pc (broadcast st.pc) i PC.loop2 k = PC.sect2 := hk2
      rw [hnew k hk] at hk3
      exact absurd hk3 (by decide)
    · rw [hempty]; simp
  · left
    obtain ⟨hins, hnot⟩ := @at_pc_set_same T st.pc PC.wait1 i hi hne
    simp only [phase1_section, hfin, if_false]
    have hcard : (at_pc T (set_pc st.pc i PC.wait1) PC.wait1).card
        = (at_pc T st.pc PC.wait1).card + 1 := by
      rw [hins, Finset.card_insert_of_not_mem hnot]
    refine ⟨?_, ?_, ?_, ?_, ?_, ?_⟩
    · intro k hk
      by_cases hki : k = i
      · right; simp [set_pc, hki]
      · simpa [set_pc, hki] using hpcs k hk
    · show st.count + 1 = _
      rw [hcard, hcount]; push_cast; rfl
    · rw [hcard]
      rw [hT, hcount] at hfin
      have : (at_pc T st.pc PC.wait1).card + 1 ≠ T := by
        intro hc; apply hfin; exact_mod_cast hc
      omega
    · rw [flags1_append, hf1, hcard, List.replicate_succ']
      rfl
    · rw [flags2_append, hf2]; rfl
    · show (if st.count + 1 = 0 then (0 : K) else _) = _
      have hpos : st.count + 1 ≠ 0 := by rw [hcount]; omega
      rw [if_neg hpos, fold_acc, hmean, hins, Finset.sum_insert hnot]
      ring

/-- The phase-2 loop of a thread keeps the invariant. -/
theorem phaseB_loop2 {K : Type} [Field K] (env : Env) (T : Nat) (st : State K)
    (tr : List Event) (i : Nat) (hpc : st.pc i = PC.loop2)
    (h : PhaseB T env st tr) :
    PhaseB T env
      { st with local_standard_deviation :=
                  set_local st.local_standard_deviation i (local_sd_of K env i),
                pc := set_pc st.pc i PC.sect2 }
      (tr ++ [Event.loop2 i]) := by
  obtain ⟨hpcs, hcount, hlt, hf1, hf2, hmean, hloc, hsd⟩ := h
  have hne : st.pc i ≠ PC.wait2 := by rw [hpc]; decide
  have hsame : at_pc T (set_pc st.pc i PC.sect2) PC.wait2 = at_pc T st.pc PC.wait2 :=
    at_pc_set_other hne (by decide)
  refine ⟨?_, ?_, ?_, ?_, ?_, hmean, ?_, ?_⟩
  · intro k hk
    by_cases hki : k = i
    · right; left; simp [set_pc, hki]
    · simpa [set_pc, hki] using hpcs k hk
  · show st.count = _
    rw [hsame, hcount]
  · show (at_pc T (set_pc st.pc i PC.sect2) PC.wait2).card < T
    rw [hsame]; exact hlt
  · rw [flags1_append, hf1]; simp [flags1]
  · show flags2 _ = List.replicate (at_pc T (set_pc st.pc i PC.sect2) PC.wait2).card false
    rw [flags2_append, hf2, hsame]; simp [flags2]
  · intro k hk hk2
    show set_local st.local_standard_deviation i (local_sd_of K env i) k = _
    by_cases hki : k = i
    · simp [set_local, hki]
    · have hk3 : set_pc st.pc i PC.sect2 k = PC.sect2 := hk2
      simp only [set_pc, hki, if_false] at hk3
      simp only [set_local, hki, if_false]
      exact hloc k hk hk3
  · show (if st.count = 0 then (0 : K) else st.standard_deviation)
      = ∑ k in at_pc T (set_pc st.pc i PC.sect2) PC.wait2, local_sd_of K env k
    rw [hsame, hsd]

/-- A phase-2 section keeps the invariant: it leaves phase 2 open, or finalizes it. -/
theorem phaseB_fold2 {K : Type} [Field K] (sqrt : K → K) (env : Env) (T : Nat)
    (hT : env.num_threads = (T : Int)) (st : State K) (tr : List Event) (i : Nat)
    (hi : i < T) (hpc : st.pc i = PC.sect2) (h : PhaseB T env st tr) :
    PhaseB T env (phase2_section sqrt env st i).1 (tr ++ [(phase2_section sqrt env st i).2]) ∨
      PhaseC sqrt T env (phase2_section sqrt env st i).1
        (tr ++ [(phase2_section sqrt env st i).2]) := by
  obtain ⟨hpcs, hcount, hlt, hf1, hf2, hmean, hloc, hsd⟩ := h
  have hne : st.pc i ≠ PC.wait2 := by rw [hpc]; decide
  have hli := hloc i hi hpc
  by_cases hfin : st.count + 1 = env.num_threads
  · right
    have hcard : (at_pc T st.pc PC.wait2).card + 1 = T := by
      rw [hT, hcount] at hfin
      exact_mod_cast hfin
    have hall := all_others_at hi hne hcard
    have hnew : ∀ k, k < T → set_pc (broadcast st.pc) i PC.done k = PC.done := by
      intro k hk
      by_cases hki : k = i
      · simp [set_pc, hki]
      · simp [set_pc, hki, broadcast, hall k hk hki]
    simp only [phase2_section, hfin, if_true]
    refine ⟨hnew, hT, ?_, ?_, hmean, ?_⟩
    · rw [flags1_append, hf1]; simp [flags1]
    · rw [flags2_append, hf2]
      simp only [flags2]
      exact replicate_full hcard
    · show sqrt _ = published_sd sqrt env
      unfold published_sd
      rw [fold_acc, hsd, hli, at_pc_eq_erase hi hne hcard, hT, Int.toNat_ofNat,
        Finset.sum_erase_add _ _ (Finset.mem_range.mpr hi)]
  · left
    obtain ⟨hins, hnot⟩ := @at_pc_set_same T st.pc PC.wait2 i hi hne
    simp only [phase2_section, hfin, if_false]
    have hcard : (at_pc T (set_pc st.pc i PC.wait2) PC.wait2).card
        = (at_pc T st.pc PC.wait2).card + 1 := by
      rw [hins, Finset.card_insert_of_not_mem hnot]
    refine ⟨?_, ?_, ?_, ?_, ?_, hmean, ?_, ?_⟩
    · intro k hk
      by_cases hki : k = i
      · right; right; simp [set_pc, hki]
      · simpa [set_pc, hki] using hpcs k hk
    · show st.count + 1 = _
      rw [hcard, hcount]; push_cast; rfl
    · show (at_pc T (set_pc st.pc i PC.wait2) PC.wait2).card < T
      rw [hcard]
      rw [hT, hcount] at hfin
      have : (at_pc T st.pc PC.wait2).card + 1 ≠ T := by
        intro hc; apply hfin; exact_mod_cast hc
      omega
    · rw [flags1_append, hf1]; simp [flags1]
    · show flags2 _ = List.replicate (at_pc T (set_pc st.pc i PC.wait2) PC.wait2).card false
      rw [flags2_append, hf2, hcard, List.replicate_succ']
      rfl
    · intro k hk hk2
      have hk3 : set_pc st.pc i PC.wait2 k = PC.sect2 := hk2
      by_cases hki : k = i
      · simp [set_pc, hki] at hk3
      · simp only [set_pc, hki, if_false] at hk3
        exact hloc k hk hk3
    · show (if st.count + 1 = 0 then (0 : K) else _)
        = ∑ k in at_pc T (set_pc st.pc i PC.wait2) PC.wait2, local_sd_of K env k
      have hpos : st.count + 1 ≠ 0 := by rw [hcount]; omega
      rw [if_neg hpos, fold_acc, hsd, hli, hins, Finset.sum_insert hnot]
      ring

/-- Every step of a thread keeps the invariant. -/
theorem inv_step {K : Type} [Field K] (sqrt : K → K) (env : Env) (hT1 : 1 ≤ env.num_threads)
    (c : State K × List Event) (i : Nat) (r : State K × Event)
    (hinv : Inv sqrt env c) (hs : step sqrt env c.1 (Action.run i) = some r) :
    Inv sqrt env (r.1, c.2 ++ [r.2]) := by
  have hT : env.num_threads = (env.num_threads.toNat : Int) := by omega
  unfold Inv at *
  simp only [step] at hs
  split_ifs at hs with hlt
  have hi : i < env.num_threads.toNat := by omega
  rcases hinv with hA | hB | hC
  · rcases hA.1 i hi with hp | hp
    · rw [hp] at hs
      simp only at hs
      cases hsl : sum_local env.list env.list_size env.num_threads (i : Int) with
      | none => rw [hsl] at hs; simp at hs
      | some v =>
        rw [hsl] at hs
        simp only [Option.some.injEq] at hs
        have hv : local_sum_of env i = v := by simp [local_sum_of, hsl]
        rw [← hs, ← hv]
        rcases phaseA_fold1 env _ hT c.1 c.2 i hi hp hA with h | h
        · exact Or.inl h
        · exact Or.inr (Or.inl h)
    · rw [hp] at hs; simp at hs
  · rcases hB.1 i hi with hp | hp | hp
    · rw [hp] at hs
      simp only at hs
      cases hsl : sd_local env.list c.1.mean env.list_size env.num_threads (i : Int) with
      | none => rw [hsl] at hs; simp at hs
      | some v =>
        rw [hsl] at hs
        simp only [Option.some.injEq] at hs
        have hv : local_sd_of K env i = v := by
          rw [hB.2.2.2.2.2.1] at hsl
          simp [local_sd_of, hsl]
        rw [← hs, ← hv]
        exact Or.inr (Or.inl (phaseB_loop2 env _ c.1 c.2 i hp hB))
    · rw [hp] at hs
      simp only [Option.some.injEq] at hs
      rw [← hs]
      rcases phaseB_fold2 sqrt env _ hT c.1 c.2 i hi hp hB with h | h
      · exact Or.inr (Or.inl h)
      · exact Or.inr (Or.inr h)
    · rw [hp] at hs; simp at hs
  · rw [hC.1 i hi] at hs; simp at hs

/-- The state in which `main` creates the threads satisfies the invariant. -/
theorem inv_init {K : Type} [Field K] (sqrt : K → K) (env : Env) (hT1 : 1 ≤ env.num_threads)
    (m0 sd0 : K) (l0 : Nat → K) : Inv sqrt env (init m0 sd0 l0, []) := by
  left
  have hempty : at_pc env.num_threads.toNat (init m0 sd0 l0).pc PC.wait1 = ∅ :=
    at_pc_empty (fun k _ => by simp [init])
  refine ⟨fun k _ => Or.inl rfl, ?_, ?_, ?_, rfl, ?_⟩
  · rw [hempty]; rfl
  · rw [hempty]; simp; omega
  · rw [hempty]; rfl
  · rw [hempty]; simp [init]

/-- Every run without spurious wakeup keeps the invariant. -/
theorem inv_exec {K : Type} [Field K] (sqrt : K → K) (env : Env) (hT1 : 1 ≤ env.num_threads)
    (sched : List Nat) :
    ∀ (c c2 : State K × List Event), Inv sqrt env c →
      exec sqrt env c (sched.map Action.run) = some c2 → Inv sqrt env c2 := by
  induction sched with
  | nil =>
    intro c c2 hinv h
    simp only [List.map_nil, exec, Option.some.injEq] at h
    rw [← h]; exact hinv
  | cons i rest ih =>
    intro c c2 hinv h
    simp only [List.map_cons, exec] at h
    cases hs : step sqrt env c.1 (Action.run i) with
    | none => rw [hs] at h; simp at h
    | some r =>
      rw [hs] at h
      exact ih _ c2 (inv_step sqrt env hT1 c i r hinv hs) h

/-! ## The folded local results add up to the serial results -/

theorem map_seg_sum {α G : Type} [AddCommGroup G] (f : α → G) (l : List α) (a n : Nat) :
    (((l.drop a).take n).map f).sum
      = ((l.take (a + n)).map f).sum - ((l.take a).map f).sum := by
  rw [List.take_add, List.map_append, List.sum_append]
  abel

theorem seg_sum (l : List Int) (a n : Nat) :
    ((l.drop a).take n).sum = (l.take (a + n)).sum - (l.take a).sum := by
  have := map_seg_sum (fun x : Int => x) l a n
  simpa using this

theorem worker_range_boundary {N T i : Nat} (hT : 1 ≤ T) (hTN : T ≤ N)
    (hN : (N : Int) ≤ INT_MAX) (hi : i < T) :
    my_start (N : Int) (T : Int) (i : Int) = (boundary N T i : Int) ∧
    trip_count (my_start (N : Int) (T : Int) (i : Int)) (my_end (N : Int) (T : Int) (i : Int))
      = boundary N T (i + 1) - boundary N T i ∧
    boundary N T i ≤ boundary N T (i + 1) ∧ boundary N T (i + 1) ≤ N := by
  have hT' : (1 : Int) ≤ (T : Int) := by exact_mod_cast hT
  have hTN' : (T : Int) ≤ (N : Int) := by exact_mod_cast hTN
  have hi0 : (0 : Int) ≤ (i : Int) := by positivity
  have hi' : (i : Int) < (T : Int) := by exact_mod_cast hi
  have hs := my_start_eq hT' hTN' hN hi0 hi'
  have he := my_end_eq hT' hTN' hN hi0 hi'
  have hdiv : (N : Int) / (T : Int) = ((N / T : Nat) : Int) := by push_cast; rfl
  have hb : 1 ≤ N / T := (Nat.one_le_div_iff (by omega)).mpr hTN
  have hmul : T * (N / T) ≤ N := Nat.mul_div_le N T
  have hbi : boundary N T i = i * (N / T) := by
    unfold boundary; rw [if_neg (by omega)]
  have hle : boundary N T i ≤ boundary N T (i + 1) ∧ boundary N T (i + 1) ≤ N := by
    rw [hbi]
    unfold boundary
    split_ifs with hl
    · constructor
      · calc i * (N / T) ≤ T * (N / T) := Nat.mul_le_mul_right _ (by omega)
          _ ≤ N := hmul
      · exact le_refl _
    · constructor
      · exact Nat.mul_le_mul_right _ (by omega)
      · calc (i + 1) * (N / T) ≤ T * (N / T) := Nat.mul_le_mul_right _ (by omega)
          _ ≤ N := hmul
  have hsb : my_start (N : Int) (T : Int) (i : Int) = (boundary N T i : Int) := by
    rw [hs, hdiv, hbi]; push_cast; rfl
  have heb : my_end (N : Int) (T : Int) (i : Int) + 1 = (boundary N T (i + 1) : Int) := by
    rw [he, hdiv]
    unfold boundary
    by_cases hl : i + 1 = T
    · rw [if_pos (by omega), if_pos hl]; omega
    · rw [if_neg (by omega), if_neg hl]; push_cast; ring
  refine ⟨hsb, ?_, hle⟩
  unfold trip_count
  rw [heb, hsb]
  omega

theorem local_sum_of_eq (env : Env) (hv : ValidEnv env) (i : Nat)
    (hi : i < env.num_threads.toNat) :
    local_sum_of env i
      = (env.list.take (boundary env.list.length env.num_threads.toNat (i + 1))).sum
        - (env.list.take (boundary env.list.length env.num_threads.toNat i)).sum := by
  obtain ⟨hT, hTN, hlen, hN, hval⟩ := hv
  have hTe : env.num_threads = (env.num_threads.toNat : Int) := by omega
  have hb := worker_range_boundary (N := env.list.length) (T := env.num_threads.toNat) (i := i)
    (by omega) (by omega) (by omega) hi
  rw [← hTe, ← hlen] at hb
  obtain ⟨hs, htc, hle1, hle2⟩ := hb
  unfold local_sum_of sum_local
  rw [htc, hs]
  unfold INT_MAX at hN
  have := sum_loop_exact env.list hval
    (boundary env.list.length env.num_threads.toNat (i + 1)
      - boundary env.list.length env.num_threads.toNat i)
    (boundary env.list.length env.num_threads.toNat i) 0 0 (by omega) (by simp) (by simp)
    (by omega)
  rw [this.1, seg_sum]
  simp only [Option.getD_some, zero_add]
  congr 3
  omega

theorem sum_local_sums (env : Env) (hv : ValidEnv env) :
    ∑ i in Finset.range env.num_threads.toNat, local_sum_of env i = env.list.sum := by
  have h1 : ∀ i ∈ Finset.range env.num_threads.toNat, local_sum_of env i
      = (fun k => (env.list.take (boundary env.list.length env.num_threads.toNat k)).sum) (i + 1)
        - (fun k => (env.list.take (boundary env.list.length env.num_threads.toNat k)).sum) i :=
    fun i hi => local_sum_of_eq env hv i (Finset.mem_range.mp hi)
  rw [Finset.sum_congr rfl h1]
  rw [Finset.sum_range_sub
    (fun k => (env.list.take (boundary env.list.length env.num_threads.toNat k)).sum)]
  obtain ⟨hT, _, _, _, _⟩ := hv
  have h0 : boundary env.list.length env.num_threads.toNat 0 = 0 := by
    unfold boundary; rw [if_neg (by omega)]; simp
  have hT2 : boundary env.list.length env.num_threads.toNat env.num_threads.toNat
      = env.list.length := by
    unfold boundary; rw [if_pos rfl]
  simp only [h0, hT2, List.take_length, List.take_zero, List.sum_nil, sub_zero]

theorem published_mean_eq (K : Type) [Field K] (env : Env) (hv : ValidEnv env) :
    published_mean K env = ((env.list.sum : Int) : K) / (env.list_size : K) := by
  unfold published_mean
  rw [← sum_local_sums env hv]
  push_cast
  rfl

theorem local_sd_of_eq (K : Type) [Field K] (env : Env) (hv : ValidEnv env) (i : Nat)
    (hi : i < env.num_threads.toNat) :
    local_sd_of K env i
      = ((env.list.take (boundary env.list.length env.num_threads.toNat (i + 1))).map
          (fun x : Int => ((x : K) - published_mean K env) * ((x : K) - published_mean K env))).sum
        - ((env.list.take (boundary env.list.length env.num_threads.toNat i)).map
          (fun x : Int => ((x : K) - published_mean K env) * ((x : K) - published_mean K env))).sum := by
  obtain ⟨hT, hTN, hlen, hN, hval⟩ := hv
  have hTe : env.num_threads = (env.num_threads.toNat : Int) := by omega
  have hb := worker_range_boundary (N := env.list.length) (T := env.num_threads.toNat) (i := i)
    (by omega) (by omega) (by omega) hi
  rw [← hTe, ← hlen] at hb
  obtain ⟨hs, htc, hle1, hle2⟩ := hb
  unfold local_sd_of sd_local
  rw [htc, hs]
  rw [sd_loop_exact env.list (published_mean K env) _ _ 0 (by omega), map_seg_sum]
  simp only [Option.getD_some, zero_add]
  congr 5
  omega

theorem sd_local_sums (K : Type) [Field K] (env : Env) (hv : ValidEnv env) :
    ∑ i in Finset.range env.num_threads.toNat, local_sd_of K env i
      = (env.list.map (fun x : Int =>
          ((x : K) - published_mean K env) * ((x : K) - published_mean K env))).sum := by
  have h1 : ∀ i ∈ Finset.range env.num_threads.toNat, local_sd_of K env i
      = (fun k => ((env.list.take (boundary env.list.length env.num_threads.toNat k)).map
          (fun x : Int => ((x : K) - published_mean K env) * ((x : K) - published_mean K env))).sum)
          (i + 1)
        - (fun k => ((env.list.take (boundary env.list.length env.num_threads.toNat k)).map
          (fun x : Int => ((x : K) - published_mean K env) * ((x : K) - published_mean K env))).sum)
          i :=
    fun i hi => local_sd_of_eq K env hv i (Finset.mem_range.mp hi)
  rw [Finset.sum_congr rfl h1]
  rw [Finset.sum_range_sub
    (fun k => ((env.list.take (boundary env.list.length env.num_threads.toNat k)).map
      (fun x : Int => ((x : K) - published_mean K env) * ((x : K) - published_mean K env))).sum)]
  obtain ⟨hT, _, _, _, _⟩ := hv
  have h0 : boundary env.list.length env.num_threads.toNat 0 = 0 := by
    unfold boundary; rw [if_neg (by omega)]; simp
  have hT2 : boundary env.list.length env.num_threads.toNat env.num_threads.toNat
      = env.list.length := by
    unfold boundary; rw [if_pos rfl]
  simp only [h0, hT2, List.take_length, List.take_zero, List.map_nil, List.sum_nil, sub_zero]

theorem published_sd_eq {K : Type} [Field K] (sqrt : K → K) (env : Env) (hv : ValidEnv env) :
    published_sd sqrt env
      = sqrt ((env.list.map (fun x : Int =>
          ((x : K) - published_mean K env) * ((x : K) - published_mean K env))).sum
          / (env.list_size : K)) := by
  unfold published_sd
  rw [sd_local_sums K env hv]

theorem true_mean_loop_exact {K : Type} [Field K] (list : List Int) :
    ∀ (n a : Nat) (tm : K), a + n ≤ list.length →
      true_mean_loop list n (a : Int) tm
        = some (tm + ((((list.drop a).take n).sum : Int) : K)) := by
  intro n
  induction n with
  | zero => intro a tm _; simp [true_mean_loop]
  | succ n ih =>
    intro a tm ha
    have hlt : a < list.length := by omega
    have := ih (a + 1) (tm + (list[a] : K)) (by omega)
    rw [take_succ_drop list n hlt, List.sum_cons]
    simp only [true_mean_loop, list_get_eq hlt]
    push_cast
    rw [← add_assoc]
    exact_mod_cast this

theorem main_true_mean_eq (K : Type) [Field K] (env : Env) (hv : ValidEnv env) :
    main_true_mean env.list env.list_size
      = some (((env.list.sum : Int) : K) / (env.list_size : K)) := by
  obtain ⟨hT, hTN, hlen, hN, hval⟩ := hv
  have hpos : 0 < env.list.length := by omega
  have h0 : list_get env.list 0 = some env.list[0] := by
    have := @list_get_eq env.list 0 hpos
    exact_mod_cast this
  have htc : trip_count 1 (env.list_size - 1) = env.list.length - 1 := by
    unfold trip_count; omega
  have hloop := true_mean_loop_exact (K := K) env.list (env.list.length - 1) 1
    (env.list[0] : K) (by omega)
  have hsum : env.list.sum = env.list[0] + ((env.list.drop 1).take (env.list.length - 1)).sum := by
    have h1 := take_succ_drop env.list (env.list.length - 1) hpos
    have h2 : env.list.length - 1 + 1 = env.list.length := by omega
    rw [h2, List.drop_zero, List.take_length] at h1
    conv_lhs => rw [h1]
    rw [List.sum_cons]
  unfold main_true_mean
  rw [h0]
  simp only [htc]
  have hloop2 : true_mean_loop env.list (env.list.length - 1) 1 (env.list[0] : K)
      = some ((env.list[0] : K) + ((((env.list.drop 1).take (env.list.length - 1)).sum : Int) : K)) := by
    exact_mod_cast hloop
  rw [hloop2, hsum]
  push_cast
  rfl

theorem main_true_standard_deviation_eq {K : Type} [Field K] (sqrt : K → K) (env : Env)
    (hv : ValidEnv env) (m : K) :
    main_true_standard_deviation sqrt env.list env.list_size m
      = some (sqrt ((env.list.map (fun x : Int => ((x : K) - m) * ((x : K) - m))).sum
          / (env.list_size : K))) := by
  obtain ⟨hT, hTN, hlen, hN, hval⟩ := hv
  have htc : trip_count 0 (env.list_size - 1) = env.list.length := by
    unfold trip_count; omega
  have hloop := sd_loop_exact (K := K) env.list m env.list.length 0 0 (by omega)
  rw [List.drop_zero, List.take_length, zero_add] at hloop
  unfold main_true_standard_deviation
  rw [htc]
  have hloop2 : sd_loop env.list m env.list.length 0 0
      = some ((env.list.map (fun x : Int => ((x : K) - m) * ((x : K) - m))).sum) := by
    exact_mod_cast hloop
  rw [hloop2]

/-! ## Completion: no deadlock and no infinite run -/

theorem all_done_iff {K : Type} (env : Env) (st : State K) :
    all_done env st = true ↔ ∀ i, i < env.num_threads.toNat → st.pc i = PC.done := by
  simp [all_done]

theorem inv_done {K : Type} [Field K] (sqrt : K → K) (env : Env) (hT1 : 1 ≤ env.num_threads)
    (c : State K × List Event) (hinv : Inv sqrt env c) (hd : all_done env c.1 = true) :
    PhaseC sqrt env.num_threads.toNat env c.1 c.2 := by
  rw [all_done_iff] at hd
  have h0 := hd 0 (by omega)
  rcases hinv with hA | hB | hC
  · rcases hA.1 0 (by omega) with h | h <;> rw [h0] at h <;> exact absurd h (by decide)
  · rcases hB.1 0 (by omega) with h | h | h <;> rw [h0] at h <;> exact absurd h (by decide)
  · exact hC

theorem exists_not_at {T : Nat} {pc : Nat → PC} {w : PC} (h : (at_pc T pc w).card < T) :
    ∃ i, i < T ∧ pc i ≠ w := by
  by_contra hc
  push_neg at hc
  have : at_pc T pc w = Finset.range T := by
    ext k
    rw [mem_at_pc, Finset.mem_range]
    exact ⟨fun hk => hk.1, fun hk => ⟨hk, hc k hk⟩⟩
  rw [this, Finset.card_range] at h
  exact lt_irrefl _ h

theorem sum_local_isSome_of_valid (env : Env) (hv : ValidEnv env) (i : Nat)
    (hi : i < env.num_threads.toNat) :
    (sum_local env.list env.list_size env.num_threads (i : Int)).isSome := by
  obtain ⟨hT, hTN, hlen, hN, hval⟩ := hv
  have hTe : env.num_threads = (env.num_threads.toNat : Int) := by omega
  have hb := worker_range_boundary (N := env.list.length) (T := env.num_threads.toNat) (i := i)
    (by omega) (by omega) (by omega) hi
  rw [← hTe, ← hlen] at hb
  obtain ⟨hs, htc, hle1, hle2⟩ := hb
  unfold sum_local
  rw [htc, hs]
  exact sum_loop_isSome env.list _ _ 0 (by omega)

theorem sd_local_isSome_of_valid {K : Type} [Field K] (env : Env) (hv : ValidEnv env) (m : K)
    (i : Nat) (hi : i < env.num_threads.toNat) :
    (sd_local env.list m env.list_size env.num_threads (i : Int)).isSome := by
  obtain ⟨hT, hTN, hlen, hN, hval⟩ := hv
  have hTe : env.num_threads = (env.num_threads.toNat : Int) := by omega
  have hb := worker_range_boundary (N := env.list.length) (T := env.num_threads.toNat) (i := i)
    (by omega) (by omega) (by omega) hi
  rw [← hTe, ← hlen] at hb
  obtain ⟨hs, htc, hle1, hle2⟩ := hb
  unfold sd_local
  rw [htc, hs, sd_loop_exact env.list m _ _ 0 (by omega)]
  rfl

/-- No deadlock: in a state of a run in which some thread has not exited, some thread can run. -/
theorem inv_progress {K : Type} [Field K] (sqrt : K → K) (env : Env) (hv : ValidEnv env)
    (c : State K × List Event) (hinv : Inv sqrt env c) (hd : all_done env c.1 = false) :
    ∃ i, i < env.num_threads.toNat ∧ (step sqrt env c.1 (Action.run i)).isSome := by
  have hT1 : 1 ≤ env.num_threads := hv.1
  rcases hinv with hA | hB | hC
  · obtain ⟨i, hi, hne⟩ := exists_not_at hA.2.2.1
    have hp : c.1.pc i = PC.start := by
      rcases hA.1 i hi with h | h
      · exact h
      · exact absurd h hne
    refine ⟨i, hi, ?_⟩
    have hlt : (i : Int) < env.num_threads := by omega
    obtain ⟨v, hv2⟩ := Option.isSome_iff_exists.mp (sum_local_isSome_of_valid env hv i hi)
    simp [step, hlt, hp, hv2]
  · obtain ⟨i, hi, hne⟩ := exists_not_at hB.2.2.1
    refine ⟨i, hi, ?_⟩
    have hlt : (i : Int) < env.num_threads := by omega
    rcases hB.1 i hi with h | h | h
    · obtain ⟨v, hv2⟩ :=
        Option.isSome_iff_exists.mp (sd_local_isSome_of_valid env hv c.1.mean i hi)
      simp [step, hlt, h, hv2]
    · simp [step, hlt, h]
    · exact absurd h hne
  · have : all_done env c.1 = true := (all_done_iff env c.1).mpr hC.1
    rw [this] at hd
    exact absurd hd (by decide)

theorem rank_le (p : PC) : rank p ≤ 3 := by
  cases p <;> simp [rank]

theorem rank_broadcast (pc : Nat → PC) (k : Nat) : rank (broadcast pc k) = rank (pc k) := by
  unfold broadcast
  cases h : pc k <;> simp [rank]

theorem progress_of_le (T : Nat) (pc : Nat → PC) : progress_of T pc ≤ 3 * T := by
  unfold progress_of
  calc ∑ k in Finset.range T, rank (pc k) ≤ ∑ _k in Finset.range T, 3 :=
        Finset.sum_le_sum (fun k _ => rank_le (pc k))
    _ = 3 * T := by simp [mul_comm]

theorem progress_of_set {T : Nat} (pc pc0 : Nat → PC) (i : Nat) (p : PC) (hi : i < T)
    (h0 : ∀ k, rank (pc0 k) = rank (pc k)) (hp : rank p = rank (pc i) + 1) :
    progress_of T (set_pc pc0 i p) = progress_of T pc + 1 := by
  unfold progress_of
  have hmem : i ∈ Finset.range T := Finset.mem_range.mpr hi
  rw [← Finset.add_sum_erase _ _ hmem, ← Finset.add_sum_erase (Finset.range T) _ hmem]
  have hrest : ∑ k in (Finset.range T).erase i, rank (set_pc pc0 i p k)
      = ∑ k in (Finset.range T).erase i, rank (pc k) := by
    apply Finset.sum_congr rfl
    intro k hk
    have hne : k ≠ i := (Finset.mem_erase.mp hk).1
    simp [set_pc, hne, h0 k]
  rw [hrest]
  simp only [set_pc, if_true, hp]
  omega

/-- Each step of a thread adds one to the number of executed blocks. -/
theorem step_progress {K : Type} [Field K] (sqrt : K → K) (env : Env) (st : State K)
    (i : Nat) (r : State K × Event) (hs : step sqrt env st (Action.run i) = some r) :
    progress_of env.num_threads.toNat r.1.pc = progress_of env.num_threads.toNat st.pc + 1 := by
  simp only [step] at hs
  split_ifs at hs with hlt
  have hi : i < env.num_threads.toNat := by omega
  cases hp : st.pc i <;> rw [hp] at hs <;> simp only at hs
  · cases hsl : sum_local env.list env.list_size env.num_threads (i : Int) with
    | none => rw [hsl] at hs; simp at hs
    | some v =>
      rw [hsl] at hs
      simp only [Option.some.injEq] at hs
      rw [← hs]
      by_cases hfin : st.count + 1 = env.num_threads
      · simp only [phase1_section, hfin, if_true]
        exact progress_of_set st.pc (broadcast st.pc) i PC.loop2 hi (rank_broadcast st.pc)
          (by rw [hp]; rfl)
      · simp only [phase1_section, hfin, if_false]
        exact progress_of_set st.pc st.pc i PC.wait1 hi (fun _ => rfl) (by rw [hp]; rfl)
  · simp at hs
  · cases hsl : sd_local env.list st.mean env.list_size env.num_threads (i : Int) with
    | none => rw [hsl] at hs; simp at hs
    | some v =>
      rw [hsl] at hs
      simp only [Option.some.injEq] at hs
      rw [← hs]
      exact progress_of_set st.pc st.pc i PC.sect2 hi (fun _ => rfl) (by rw [hp]; rfl)
  · simp only [Option.some.injEq] at hs
    rw [← hs]
    by_cases hfin : st.count + 1 = env.num_threads
    · simp only [phase2_section, hfin, if_true]
      exact progress_of_set st.pc (broadcast st.pc) i PC.done hi (rank_broadcast st.pc)
        (by rw [hp]; rfl)
    · simp only [phase2_section, hfin, if_false]
      exact progress_of_set st.pc st.pc i PC.wait2 hi (fun _ => rfl) (by rw [hp]; rfl)
  · simp at hs
  · simp at hs

/-- A run of `n` steps adds `n` to the number of executed blocks. -/
theorem exec_progress {K : Type} [Field K] (sqrt : K → K) (env : Env) (sched : List Nat) :
    ∀ (c c2 : State K × List Event),
      exec sqrt env c (sched.map Action.run) = some c2 →
      progress_of env.num_threads.toNat c2.1.pc
        = progress_of env.num_threads.toNat c.1.pc + sched.length := by
  induction sched with
  | nil =>
    intro c c2 h
    simp only [List.map_nil, exec, Option.some.injEq] at h
    rw [← h]; rfl
  | cons i rest ih =>
    intro c c2 h
    simp only [List.map_cons, exec] at h
    cases hs : step sqrt env c.1 (Action.run i) with
    | none => rw [hs] at h; simp at h
    | some r =>
      rw [hs] at h
      have h1 := ih _ c2 h
      have h2 := step_progress sqrt env c.1 i r hs
      simp only at h1
      rw [h1, h2, List.length_cons]
      omega

theorem exec_trace {K : Type} [Field K] (sqrt : K → K) (env : Env) (s : List Action) :
    ∀ (c c2 : State K × List Event), exec sqrt env c s = some c2 → ∃ tr, c2.2 = c.2 ++ tr := by
  induction s with
  | nil =>
    intro c c2 h
    simp only [exec, Option.some.injEq] at h
    exact ⟨[], by rw [← h]; simp⟩
  | cons a rest ih =>
    intro c c2 h
    simp only [exec] at h
    cases hs : step sqrt env c.1 a with
    | none => rw [hs] at h; simp at h
    | some r =>
      rw [hs] at h
      obtain ⟨tr, htr⟩ := ih _ c2 h
      exact ⟨r.2 :: tr, by rw [htr]; simp⟩

/-- Every state of a run can be continued to a state in which all threads have exited. -/
theorem exists_completion {K : Type} [Field K] (sqrt : K → K) (env : Env) (hv : ValidEnv env) :
    ∀ (n : Nat) (c : State K × List Event), Inv sqrt env c →
      3 * env.num_threads.toNat - progress_of env.num_threads.toNat c.1.pc ≤ n →
      ∃ (sched : List Nat) (c2 : State K × List Event),
        exec sqrt env c (sched.map Action.run) = some c2 ∧ all_done env c2.1 = true := by
  intro n
  induction n with
  | zero =>
    intro c hinv hn
    by_cases hd : all_done env c.1 = true
    · exact ⟨[], c, rfl, hd⟩
    · obtain ⟨i, _, hsome⟩ := inv_progress sqrt env hv c hinv (by simpa using hd)
      obtain ⟨r, hr⟩ := Option.isSome_iff_exists.mp hsome
      have h1 := step_progress sqrt env c.1 i r hr
      have h2 := progress_of_le env.num_threads.toNat r.1.pc
      omega
  | succ n ih =>
    intro c hinv hn
    by_cases hd : all_done env c.1 = true
    · exact ⟨[], c, rfl, hd⟩
    · obtain ⟨i, _, hsome⟩ := inv_progress sqrt env hv c hinv (by simpa using hd)
      obtain ⟨r, hr⟩ := Option.isSome_iff_exists.mp hsome
      have h1 := step_progress sqrt env c.1 i r hr
      have hinv2 := inv_step sqrt env hv.1 c i r hinv hr
      obtain ⟨sched, c2, hrun, hdone⟩ := ih (r.1, c.2 ++ [r.2]) hinv2 (by simp only; omega)
      refine ⟨i :: sched, c2, ?_, hdone⟩
      simp only [List.map_cons, exec, hr]
      exact hrun

theorem some_get_eq {α : Type} (o : Option α) (h : o.isSome = true) : o = some (o.get h) :=
  (Option.some_get h).symm

/-! ## C3: accuracy against the serial reference -/

/-- Accuracy of the runs in which waiting threads resume only at a broadcast, over exact
arithmetic: for a list of `N` values of type `int`, `T` with `1 ≤ T ≤ N`, any initial
values of `mean` and `standard_deviation` and any such schedule of the threads' blocks
from `count = 0`: the run has at most `3 T` steps, while a thread has not exited some
thread can run and the run can be continued until all have exited, and when all have
exited `mean` is `(sum of the list) / N`, `standard_deviation` is
`sqrt ((sum of (x - mean)^2) / N)`, and these are the values `true_mean` and
`true_standard_deviation` that `main` computes. -/
theorem accuracy {K : Type} [Field K] (sqrt : K → K) (env : Env) (hv : ValidEnv env)
    (m0 sd0 : K) (l0 : Nat → K) (sched : List Nat) (c : State K × List Event)
    (hrun : exec sqrt env (init m0 sd0 l0, []) (sched.map Action.run) = some c) :
    (all_done env c.1 = true →
      c.1.mean = ((env.list.sum : Int) : K) / (env.list_size : K) ∧
      c.1.standard_deviation
        = sqrt ((env.list.map (fun x : Int => ((x : K) - c.1.mean) ^ 2)).sum
            / (env.list_size : K)) ∧
      ∃ tm tsd : K, main_true_mean env.list env.list_size = some tm ∧
        main_true_standard_deviation sqrt env.list env.list_size tm = some tsd ∧
        c.1.mean = tm ∧ c.1.standard_deviation = tsd) ∧
    (all_done env c.1 = false →
      ∃ i, i < env.num_threads.toNat ∧ (step sqrt env c.1 (Action.run i)).isSome) ∧
    (∃ (sched2 : List Nat) (c2 : State K × List Event),
      exec sqrt env c (sched2.map Action.run) = some c2 ∧ all_done env c2.1 = true) ∧
    sched.length ≤ 3 * env.num_threads.toNat := by
  have hinv := inv_exec sqrt env hv.1 sched _ c (inv_init sqrt env hv.1 m0 sd0 l0) hrun
  refine ⟨?_, inv_progress sqrt env hv c hinv, exists_completion sqrt env hv _ c hinv le_rfl, ?_⟩
  · intro hd
    obtain ⟨_, _, _, _, hm, hs⟩ := inv_done sqrt env hv.1 c hinv hd
    have hm2 := published_mean_eq K env hv
    have hs2 := published_sd_eq sqrt env hv
    have hsq : (fun x : Int => ((x : K) - c.1.mean) ^ 2)
        = (fun x : Int => ((x : K) - published_mean K env) * ((x : K) - published_mean K env)) := by
      funext x; rw [hm, sq]
    refine ⟨by rw [hm, hm2], by rw [hsq, hs, hs2], _, _, main_true_mean_eq K env hv,
      main_true_standard_deviation_eq sqrt env hv _, by rw [hm, hm2], ?_⟩
    rw [hs, hs2, hm2]
  · have h1 := exec_progress sqrt env sched _ c hrun
    have h2 := progress_of_le env.num_threads.toNat c.1.pc
    omega

/-- An instance of `accuracy`: two threads on `[1, 3]` over the reals, thread 1 arriving
first in phase 1 and thread 0 first in phase 2. -/
theorem accuracy_witness :
    ValidEnv env_two ∧
    ∃ c, exec Real.sqrt env_two (init 7 9 (fun _ => 0), [])
        ([1, 0, 0, 1, 0, 1].map Action.run) = some c ∧
      all_done env_two c.1 = true ∧
      c.1.mean = (((env_two.list.sum : Int) : ℝ)) / (env_two.list_size : ℝ) ∧
      c.1.standard_deviation
        = Real.sqrt ((env_two.list.map (fun x : Int => ((x : ℝ) - c.1.mean) ^ 2)).sum
            / (env_two.list_size : ℝ)) :=
  have hv : ValidEnv env_two := by unfold ValidEnv; decide
  have hd : all_done env_two ((exec Real.sqrt env_two (init 7 9 (fun _ => 0), [])
      ([1, 0, 0, 1, 0, 1].map Action.run)).get (by decide)).1 = true := by decide
  have h := (accuracy Real.sqrt env_two hv 7 9 (fun _ => 0) [1, 0, 0, 1, 0, 1] _
    (Option.some_get (by decide)).symm).1 hd
  ⟨hv, _, (Option.some_get (by decide)).symm, hd, h.1, h.2.1⟩

/-- C3 fails on the code: the lock-protected sections can run in the order phase 1 of
thread 0, phase 1 of thread 1, phase 2 of thread 0, phase 2 of thread 1 and leave a
wrong `standard_deviation`. With two threads on `[1, 3]` over the reals, thread 0 folds
its local sum and blocks at line 75, `pthread_cond_wait` returns without a broadcast and
thread 0 runs its phase-2 loop with `mean = 1`; then thread 1 finalizes phase 1, both
threads run their phase-2 sections and exit, each phase having had exactly one
finalizer. The run leaves `mean = 2` and `standard_deviation = sqrt (1 / 2)`, whereas
`main` computes `true_mean = 2` and `true_standard_deviation = sqrt 1`. -/
theorem accuracy_fails_with_spurious_wakeup :
    (exec Real.sqrt env_two (init 7 9 (fun _ => 0), [])
        [Action.run 0, Action.spurious_wakeup 0, Action.run 0, Action.run 1, Action.run 1,
          Action.run 0, Action.run 1]).map
      (fun c => (c.2, all_done env_two c.1))
      = some ([Event.fold1 0 false, Event.spurious 0, Event.loop2 0, Event.fold1 1 true,
          Event.loop2 1, Event.fold2 0 false, Event.fold2 1 true], true) ∧
    (exec Real.sqrt env_two (init 7 9 (fun _ => 0), [])
        [Action.run 0, Action.spurious_wakeup 0, Action.run 0, Action.run 1, Action.run 1,
          Action.run 0, Action.run 1]).map
      (fun c => (c.1.mean, c.1.standard_deviation)) = some (2, Real.sqrt (1 / 2)) ∧
    main_true_mean env_two.list env_two.list_size = some (2 : ℝ) ∧
    main_true_standard_deviation Real.sqrt env_two.list env_two.list_size (2 : ℝ)
      = some (Real.sqrt 1) ∧
    Real.sqrt (1 / 2) ≠ Real.sqrt 1 := by
  refine ⟨by decide, ?_, ?_, ?_, ?_⟩
  · simp [exec, step, env_two, init, sum_local, sum_loop, list_get, trip_count, my_start,
      my_end, block_size, wrap32, wrap64, phase1_section, phase2_section, set_pc, broadcast,
      sd_local, sd_loop, set_local]
    norm_num
  · simp [main_true_mean, true_mean_loop, env_two, list_get, trip_count]
    norm_num
  · simp [main_true_standard_deviation, sd_loop, env_two, list_get, trip_count]
    norm_num
  · rw [Real.sqrt_one]
    intro h
    rw [Real.sqrt_eq_one] at h
    norm_num at h

/-- A run with one spurious wakeup on any list of two different values of type `int`,
with two threads and any initial values of the results: thread 0 blocks at line 75, its
wait returns without a broadcast and it runs its phase-2 loop before thread 1 folds;
both threads exit, `mean` is right, and `standard_deviation` differs from the
`true_standard_deviation` of `main`. -/
theorem spurious_run_two_elements (a b : Int)
    (ha : -2147483648 ≤ a ∧ a ≤ 2147483647) (hb : -2147483648 ≤ b ∧ b ≤ 2147483647)
    (hab : a ≠ b) (m0 sd0 : ℝ) (l0 : Nat → ℝ) :
    (exec Real.sqrt { list := [a, b], list_size := 2, num_threads := 2 } (init m0 sd0 l0, [])
        [Action.run 0, Action.spurious_wakeup 0, Action.run 0, Action.run 1, Action.run 1,
          Action.run 0, Action.run 1]).map
      (fun c => (all_done { list := [a, b], list_size := 2, num_threads := 2 } c.1,
        c.1.mean, c.1.standard_deviation))
      = some (true, ((a : ℝ) + b) / 2,
          Real.sqrt ((((b : ℝ) - ((a : ℝ) + b) / 2) * ((b : ℝ) - ((a : ℝ) + b) / 2)) / 2)) ∧
    main_true_mean [a, b] 2 = some (((a : ℝ) + b) / 2) ∧
    main_true_standard_deviation Real.sqrt [a, b] 2 (((a : ℝ) + b) / 2)
      = some (Real.sqrt (((((a : ℝ) - ((a : ℝ) + b) / 2) * ((a : ℝ) - ((a : ℝ) + b) / 2))
          + (((b : ℝ) - ((a : ℝ) + b) / 2) * ((b : ℝ) - ((a : ℝ) + b) / 2))) / 2)) ∧
    Real.sqrt ((((b : ℝ) - ((a : ℝ) + b) / 2) * ((b : ℝ) - ((a : ℝ) + b) / 2)) / 2)
      ≠ Real.sqrt (((((a : ℝ) - ((a : ℝ) + b) / 2) * ((a : ℝ) - ((a : ℝ) + b) / 2))
          + (((b : ℝ) - ((a : ℝ) + b) / 2) * ((b : ℝ) - ((a : ℝ) + b) / 2))) / 2) := by
  have h1 : wrap64 a = a := wrap64_eq_self (by omega) (by omega)
  have h2 : wrap64 b = b := wrap64_eq_self (by omega) (by omega)
  refine ⟨?_, ?_, ?_, ?_⟩
  · simp [exec, step, init, sum_local, sum_loop, list_get, trip_count, my_start,
      my_end, block_size, wrap32, phase1_section, phase2_section, set_pc, broadcast,
      sd_local, sd_loop, set_local, h1, h2, all_done, List.range_succ]
  · simp [main_true_mean, true_mean_loop, list_get, trip_count]
  · simp [main_true_standard_deviation, sd_loop, list_get, trip_count]
  · intro h
    have n1 : 0 ≤ (((b : ℝ) - ((a : ℝ) + b) / 2) * ((b : ℝ) - ((a : ℝ) + b) / 2)) / 2 :=
      div_nonneg (mul_self_nonneg _) (by norm_num)
    have n2 : 0 ≤ ((((a : ℝ) - ((a : ℝ) + b) / 2) * ((a : ℝ) - ((a : ℝ) + b) / 2))
        + (((b : ℝ) - ((a : ℝ) + b) / 2) * ((b : ℝ) - ((a : ℝ) + b) / 2))) / 2 :=
      div_nonneg (add_nonneg (mul_self_nonneg _) (mul_self_nonneg _)) (by norm_num)
    rw [Real.sqrt_inj n1 n2] at h
    have hne : (a : ℝ) ≠ (b : ℝ) := by exact_mod_cast hab
    have h0 : ((a : ℝ) - ((a : ℝ) + b) / 2) * ((a : ℝ) - ((a : ℝ) + b) / 2) = 0 := by
      linarith
    have h3 : (a : ℝ) - ((a : ℝ) + b) / 2 = 0 := by
      rcases mul_eq_zero.mp h0 with h | h <;> exact h
    apply hne
    linarith

/-! ## C4: one finalizer per phase -/

theorem count_true_replicate_false (n : Nat) : (List.replicate n false).count true = 0 := by
  simp [List.count_replicate]

theorem count_true_full (T : Nat) : (full_flags T).count true = 1 := by
  unfold full_flags
  rw [List.count_append, count_true_replicate_false]
  rfl

/-- C4 (single finalizer per phase): for `T ≥ 1`, in every run in which waiting threads
resume only at a broadcast, at most one phase-1 section and at most one phase-2 section
take the branch `count == num_threads`; when all threads have exited, the flags of the
`T` arrivals of each phase are `false` for the first `T - 1` and `true` for the `T`-th,
so exactly one worker per phase, the last to arrive, is the finalizer; for `T = 1` the
only arrival of each phase is the finalizer. -/
theorem single_finalizer {K : Type} [Field K] (sqrt : K → K) (env : Env)
    (hT : 1 ≤ env.num_threads) (m0 sd0 : K) (l0 : Nat → K) (sched : List Nat)
    (c : State K × List Event)
    (hrun : exec sqrt env (init m0 sd0 l0, []) (sched.map Action.run) = some c) :
    (flags1 c.2).count true ≤ 1 ∧ (flags2 c.2).count true ≤ 1 ∧
    (all_done env c.1 = true →
      flags1 c.2 = List.replicate (env.num_threads.toNat - 1) false ++ [true] ∧
      flags2 c.2 = List.replicate (env.num_threads.toNat - 1) false ++ [true] ∧
      (flags1 c.2).count true = 1 ∧ (flags2 c.2).count true = 1 ∧
      (env.num_threads = 1 → flags1 c.2 = [true] ∧ flags2 c.2 = [true])) := by
  have hinv := inv_exec sqrt env hT sched _ c (inv_init sqrt env hT m0 sd0 l0) hrun
  refine ⟨?_, ?_, ?_⟩
  · rcases hinv with h | h | h
    · rw [h.2.2.2.1, count_true_replicate_false]; omega
    · rw [h.2.2.2.1, count_true_full]
    · rw [h.2.2.1, count_true_full]
  · rcases hinv with h | h | h
    · rw [h.2.2.2.2.1]; simp
    · rw [h.2.2.2.2.1, count_true_replicate_false]; omega
    · rw [h.2.2.2.1, count_true_full]
  · intro hd
    obtain ⟨_, _, h1, h2, _, _⟩ := inv_done sqrt env hT c hinv hd
    refine ⟨h1, h2, by rw [h1, count_true_full], by rw [h2, count_true_full], ?_⟩
    intro hone
    rw [h1, h2]
    unfold full_flags
    rw [hone]
    exact ⟨rfl, rfl⟩

/-- Witness of `single_finalizer`: three threads on ten elements; thread 0 is the last
to arrive in both phases. -/
theorem single_finalizer_witness :
    (1 : Int) ≤ env_three.num_threads ∧
    ∃ c, exec (fun x : ℚ => x) env_three (init 0 0 (fun _ => 0), [])
        ([2, 1, 0, 1, 1, 2, 0, 2, 0].map Action.run) = some c ∧
      all_done env_three c.1 = true ∧
      flags1 c.2 = [false, false, true] ∧ flags2 c.2 = [false, false, true] ∧
      (flags1 c.2).count true = 1 ∧ (flags2 c.2).count true = 1 :=
  have hd : all_done env_three ((exec (fun x : ℚ => x) env_three (init 0 0 (fun _ => 0), [])
      ([2, 1, 0, 1, 1, 2, 0, 2, 0].map Action.run)).get (by decide)).1 = true := by decide
  have h := (single_finalizer (fun x : ℚ => x) env_three (by decide) 0 0 (fun _ => 0)
    [2, 1, 0, 1, 1, 2, 0, 2, 0] _ (Option.some_get (by decide)).symm).2.2 hd
  ⟨by decide, _, (Option.some_get (by decide)).symm, hd, h.1, h.2.1, h.2.2.1, h.2.2.2.1⟩

/-! ## C7: the arrival counter -/

theorem step_count {K : Type} [Field K] (sqrt : K → K) (env : Env) (st : State K)
    (i : Nat) (r : State K × Event) (hs : step sqrt env st (Action.run i) = some r) :
    (∀ j, r.2 = Event.fold1 j true → r.1.count = 0) ∧
    (∀ j, r.2 = Event.fold2 j true → r.1.count = env.num_threads) := by
  simp only [step] at hs
  split_ifs at hs with hlt
  cases hp : st.pc i <;> rw [hp] at hs <;> simp only at hs
  · cases hsl : sum_local env.list env.list_size env.num_threads (i : Int) with
    | none => rw [hsl] at hs; simp at hs
    | some v =>
      rw [hsl] at hs
      simp only [Option.some.injEq] at hs
      rw [← hs]
      by_cases hfin : st.count + 1 = env.num_threads
      · simp [phase1_section, hfin]
      · simp [phase1_section, hfin]
  · simp at hs
  · cases hsl : sd_local env.list st.mean env.list_size env.num_threads (i : Int) with
    | none => rw [hsl] at hs; simp at hs
    | some v =>
      rw [hsl] at hs
      simp only [Option.some.injEq] at hs
      rw [← hs]
      simp
  · simp only [Option.some.injEq] at hs
    rw [← hs]
    by_cases hfin : st.count + 1 = env.num_threads
    · simp [phase2_section, hfin]
    · simp [phase2_section, hfin]
  · simp at hs
  · simp at hs

/-- C7 as the code has it (arrival counter): for `T ≥ 1`, in every state of a run from
`count = 0` in which waiting threads resume only at a broadcast, `0 ≤ count ≤ T`;
immediately after the phase-1 finalizer has run `count` is 0, and immediately after the
phase-2 finalizer has run `count` is `T` (lines 94-98 do not reset it). -/
theorem counter_invariant {K : Type} [Field K] (sqrt : K → K) (env : Env)
    (hT : 1 ≤ env.num_threads) (m0 sd0 : K) (l0 : Nat → K) (sched : List Nat)
    (c : State K × List Event)
    (hrun : exec sqrt env (init m0 sd0 l0, []) (sched.map Action.run) = some c) :
    0 ≤ c.1.count ∧ c.1.count ≤ env.num_threads ∧
    ∀ i r, step sqrt env c.1 (Action.run i) = some r →
      (∀ j, r.2 = Event.fold1 j true → r.1.count = 0) ∧
      (∀ j, r.2 = Event.fold2 j true → r.1.count = env.num_threads) := by
  have hinv := inv_exec sqrt env hT sched _ c (inv_init sqrt env hT m0 sd0 l0) hrun
  refine ⟨?_, ?_, fun i r hs => step_count sqrt env c.1 i r hs⟩
  · rcases hinv with h | h | h
    · rw [h.2.1]; positivity
    · rw [h.2.1]; positivity
    · rw [h.2.1]; positivity
  · rcases hinv with h | h | h
    · have := h.2.2.1; rw [h.2.1]; omega
    · have := h.2.2.1; rw [h.2.1]; omega
    · rw [h.2.1]; omega

/-- Witness of `counter_invariant`: one thread, after its phase-1 section and its loop;
its next step is the phase-2 finalizer. -/
theorem counter_invariant_witness :
    (1 : Int) ≤ env_one.num_threads ∧
    ∃ c, exec (fun x : ℚ => x) env_one (init 0 0 (fun _ => 0), [])
        ([0, 0].map Action.run) = some c ∧
      0 ≤ c.1.count ∧ c.1.count ≤ env_one.num_threads ∧
      ∃ r, step (fun x : ℚ => x) env_one c.1 (Action.run 0) = some r ∧
        r.2 = Event.fold2 0 true ∧ r.1.count = env_one.num_threads :=
  have h := counter_invariant (fun x : ℚ => x) env_one (by decide) 0 0 (fun _ => 0) [0, 0] _
    (some_get_eq ((exec (fun x : ℚ => x) env_one (init 0 0 (fun _ => 0), [])
      ([0, 0].map Action.run))) (by decide))
  have hr : (Option.get (step (fun x : ℚ => x) env_one ((exec (fun x : ℚ => x) env_one (init 0 0 (fun _ => 0), [])
      ([0, 0].map Action.run)).get (by decide)).1 (Action.run 0))
      (by decide)).2 = Event.fold2 0 true := by decide
  ⟨by decide, _, (Option.some_get (by decide)).symm, h.1, h.2.1, _,
    (Option.some_get (by decide)).symm, hr,
    (h.2.2 0 _ (Option.some_get (by decide)).symm).2 0 hr⟩

/-- C7 as stated fails: with one thread on `[5]`, the third step is the phase-2
finalizer and leaves `count = 1`, not 0. -/
theorem counter_reset_counterexample :
    (exec (fun x : ℚ => x) env_one (init 0 0 (fun _ => 0), [])
        ([0, 0, 0].map Action.run)).map (fun c => (c.2, c.1.count))
      = some ([Event.fold1 0 true, Event.loop2 0, Event.fold2 0 true], 1) := by
  decide

/-! ## C8: the published results -/

theorem not_true_mem_replicate_false (n : Nat) : true ∉ List.replicate n false := by
  intro h
  have := List.eq_of_mem_replicate h
  exact absurd this (by decide)

theorem step_frame {K : Type} [Field K] (sqrt : K → K) (env : Env) (st : State K)
    (a : Action) (r : State K × Event) (hs : step sqrt env st a = some r) :
    ((∀ j b, r.2 ≠ Event.fold1 j b) → r.1.mean = st.mean) ∧
    ((∀ j b, r.2 ≠ Event.fold2 j b) → r.1.standard_deviation = st.standard_deviation) := by
  cases a with
  | run i =>
    simp only [step] at hs
    split_ifs at hs with hlt
    cases hp : st.pc i <;> rw [hp] at hs <;> simp only at hs
    · cases hsl : sum_local env.list env.list_size env.num_threads (i : Int) with
      | none => rw [hsl] at hs; simp at hs
      | some v =>
        rw [hsl] at hs
        simp only [Option.some.injEq] at hs
        rw [← hs]
        by_cases hfin : st.count + 1 = env.num_threads
        · simp [phase1_section, hfin]
        · simp [phase1_section, hfin]
    · simp at hs
    · cases hsl : sd_local env.list st.mean env.list_size env.num_threads (i : Int) with
      | none => rw [hsl] at hs; simp at hs
      | some v =>
        rw [hsl] at hs
        simp only [Option.some.injEq] at hs
        rw [← hs]
        simp
    · simp only [Option.some.injEq] at hs
      rw [← hs]
      by_cases hfin : st.count + 1 = env.num_threads
      · simp [phase2_section, hfin]
      · simp [phase2_section, hfin]
    · simp at hs
    · simp at hs
  | spurious_wakeup i =>
    simp only [step] at hs
    split_ifs at hs with hlt
    cases hp : st.pc i <;> rw [hp] at hs <;> simp only at hs
    · simp at hs
    · simp only [Option.some.injEq] at hs
      rw [← hs]
      simp
    · simp at hs
    · simp at hs
    · simp only [Option.some.injEq] at hs
      rw [← hs]
      simp
    · simp at hs

/-- C8 as the code has it (published results): for `T ≥ 1`, in every run from
`count = 0` in which waiting threads resume only at a broadcast: once the phase-1
finalizer (the worker that observes `count == num_threads`) has run, `mean` holds the
published mean and no later step of the run changes it; once the phase-2 finalizer has
run, `standard_deviation` holds the published standard deviation and no later step of
the run changes it. In every state and for every step, spurious wakeups included: a step
that is not a phase-1 section, in particular a phase-2 loop or a phase-2 section, does
not change `mean`, and a step that is not a phase-2 section does not change
`standard_deviation`. Nothing is said of the arrivals before the finalizer of a phase:
the variable is also the accumulator of the phase. -/
theorem published_result_stable {K : Type} [Field K] (sqrt : K → K) (env : Env)
    (hT : 1 ≤ env.num_threads) (m0 sd0 : K) (l0 : Nat → K) (s1 s2 : List Nat)
    (c1 c2 : State K × List Event)
    (hrun1 : exec sqrt env (init m0 sd0 l0, []) (s1.map Action.run) = some c1)
    (hrun2 : exec sqrt env c1 (s2.map Action.run) = some c2) :
    (true ∈ flags1 c1.2 → c1.1.mean = published_mean K env ∧ c2.1.mean = c1.1.mean) ∧
    (true ∈ flags2 c1.2 →
      c1.1.standard_deviation = published_sd sqrt env ∧
      c2.1.standard_deviation = c1.1.standard_deviation) ∧
    (∀ (st : State K) (a : Action) (r : State K × Event), step sqrt env st a = some r →
      ((∀ j b, r.2 ≠ Event.fold1 j b) → r.1.mean = st.mean) ∧
      ((∀ j b, r.2 ≠ Event.fold2 j b) → r.1.standard_deviation = st.standard_deviation)) := by
  have hinv1 := inv_exec sqrt env hT s1 _ c1 (inv_init sqrt env hT m0 sd0 l0) hrun1
  have hinv2 := inv_exec sqrt env hT s2 c1 c2 hinv1 hrun2
  obtain ⟨tr, htr⟩ := exec_trace sqrt env _ c1 c2 hrun2
  refine ⟨?_, ?_, fun st a r hs => step_frame sqrt env st a r hs⟩
  · intro h1
    have h2 : true ∈ flags1 c2.2 := by
      rw [htr, flags1_append]; exact List.mem_append_left _ h1
    have hm1 : c1.1.mean = published_mean K env := by
      rcases hinv1 with h | h | h
      · rw [h.2.2.2.1] at h1; exact absurd h1 (not_true_mem_replicate_false _)
      · exact h.2.2.2.2.2.1
      · exact h.2.2.2.2.1
    have hm2 : c2.1.mean = published_mean K env := by
      rcases hinv2 with h | h | h
      · rw [h.2.2.2.1] at h2; exact absurd h2 (not_true_mem_replicate_false _)
      · exact h.2.2.2.2.2.1
      · exact h.2.2.2.2.1
    exact ⟨hm1, by rw [hm1, hm2]⟩
  · intro h1
    have h2 : true ∈ flags2 c2.2 := by
      rw [htr, flags2_append]; exact List.mem_append_left _ h1
    have hm1 : c1.1.standard_deviation = published_sd sqrt env := by
      rcases hinv1 with h | h | h
      · rw [h.2.2.2.2.1] at h1; simp at h1
      · rw [h.2.2.2.2.1] at h1; exact absurd h1 (not_true_mem_replicate_false _)
      · exact h.2.2.2.2.2
    have hm2 : c2.1.standard_deviation = published_sd sqrt env := by
      rcases hinv2 with h | h | h
      · rw [h.2.2.2.2.1] at h2; simp at h2
      · rw [h.2.2.2.2.1] at h2; exact absurd h2 (not_true_mem_replicate_false _)
      · exact h.2.2.2.2.2
    exact ⟨hm1, by rw [hm1, hm2]⟩

/-- Witness of `published_result_stable`: two threads on `[1, 3]`; after both phase-1
sections (`s1`) the three following steps (`s2`) leave `mean` unchanged. -/
theorem published_result_stable_witness :
    (1 : Int) ≤ env_two.num_threads ∧
    ∃ c1 c2, exec (fun x : ℚ => x) env_two (init 7 9 (fun _ => 0), [])
        ([0, 1].map Action.run) = some c1 ∧
      exec (fun x : ℚ => x) env_two c1 ([1, 0, 1].map Action.run) = some c2 ∧
      true ∈ flags1 c1.2 ∧
      c1.1.mean = published_mean ℚ env_two ∧ c2.1.mean = c1.1.mean :=
  have hf : true ∈ flags1 ((exec (fun x : ℚ => x) env_two (init 7 9 (fun _ => 0), [])
      ([0, 1].map Action.run)).get (by decide)).2 := by decide
  have h := (published_result_stable (fun x : ℚ => x) env_two (by decide) 7 9 (fun _ => 0)
    [0, 1] [1, 0, 1] _ _ (some_get_eq ((exec (fun x : ℚ => x) env_two (init 7 9 (fun _ => 0), [])
      ([0, 1].map Action.run))) (by decide))
    (some_get_eq (exec (fun x : ℚ => x) env_two ((exec (fun x : ℚ => x) env_two (init 7 9 (fun _ => 0), [])
      ([0, 1].map Action.run)).get (by decide))
      ([1, 0, 1].map Action.run)) (by decide))).1 hf
  ⟨by decide, _, _, (Option.some_get (by decide)).symm, (Option.some_get (by decide)).symm,
    hf, h.1, h.2⟩

/-- C8 as stated fails: with two threads on `[1, 3]` and `mean = 7` initially, the
phase-1 section of thread 0 does not take the finalizer branch and changes `mean`. -/
theorem published_written_once_counterexample :
    ∃ r, step (fun x : ℚ => x) env_two (init 7 9 (fun _ => 0)) (Action.run 0) = some r ∧
      r.2 = Event.fold1 0 false ∧ r.1.mean ≠ (init (7 : ℚ) 9 (fun _ => 0)).mean := by
  refine ⟨phase1_section env_two (init 7 9 (fun _ => 0)) 0 1, rfl, rfl, ?_⟩
  simp [phase1_section, init, env_two]

/-! ## C5: a spurious wakeup breaks the barrier -/

/-- C5 fails on the code: with two threads on `[1, 3]`, thread 0 folds its local sum and
blocks at line 75; `pthread_cond_wait` returns without a broadcast; thread 0 then runs
its phase-2 loop. At that point thread 1 has not started, no phase-1 finalizer has run,
`mean` holds the local sum 1 of thread 0 (the published mean is 2), and thread 0 has
computed the local deviation 0 instead of 1. Continuing, thread 0 finalizes phase 2
alone and thread 1 blocks for ever with `count = 3`. -/
theorem spurious_wakeup_breaks_barrier :
    (exec (fun x : ℚ => x) env_two (init 0 0 (fun _ => 0), [])
        [Action.run 0, Action.spurious_wakeup 0, Action.run 0]).map
      (fun c => (c.2, c.1.pc 0, c.1.pc 1, c.1.count, c.1.mean, c.1.local_standard_deviation 0))
      = some ([Event.fold1 0 false, Event.spurious 0, Event.loop2 0],
          PC.sect2, PC.start, 1, 1, 0) ∧
    published_mean ℚ env_two = 2 ∧ local_sd_of ℚ env_two 0 = 1 ∧
    (exec (fun x : ℚ => x) env_two (init 0 0 (fun _ => 0), [])
        [Action.run 0, Action.spurious_wakeup 0, Action.run 0, Action.run 0, Action.run 1]).map
      (fun c => (c.2, c.1.pc 0, c.1.pc 1, c.1.count, c.1.mean))
      = some ([Event.fold1 0 false, Event.spurious 0, Event.loop2 0, Event.fold2 0 true,
          Event.fold1 1 false], PC.done, PC.wait1, 3, 4) := by
  refine ⟨?_, ?_, ?_, ?_⟩
  · simp [exec, step, env_two, init, sum_local, sum_loop, list_get, trip_count, my_start,
      my_end, block_size, wrap32, wrap64, phase1_section, set_pc, sd_local, sd_loop,
      set_local]
  · simp [published_mean, local_sum_of, env_two, sum_local, sum_loop, list_get, trip_count,
      my_start, my_end, block_size, wrap32, wrap64, Finset.sum_range_succ]
    norm_num
  · simp [local_sd_of, published_mean, local_sum_of, env_two, sum_local, sum_loop, list_get,
      trip_count, my_start, my_end, block_size, wrap32, wrap64, Finset.sum_range_succ,
      sd_local, sd_loop]
    norm_num
  · simp [exec, step, env_two, init, sum_local, sum_loop, list_get, trip_count, my_start,
      my_end, block_size, wrap32, wrap64, phase1_section, phase2_section, set_pc, broadcast,
      sd_local, sd_loop, set_local]
    norm_num

end ListStatistics
